import Mathlib

/-!
# NearlyFreeSpeech DNS client (`providers/dns/nearlyfreespeech/internal/client.go`)

A shallow embedding of the client and of the library routines it calls
(`crypto/sha1`, `strconv`, `fmt`, `path`, `net/url`, `go-querystring`),
followed by the properties of the request signature, the body encoding,
the target path and the response handling.

Go strings and byte slices are lists of bytes.  The random source, the
clock and the HTTP transport are explicit arguments.
-/

namespace NearlyFreeSpeech

/-! ## Bytes and strings -/

/-- A Go `byte`. -/
abbrev Byte := Fin 256

/-- A Go `string` (or `[]byte`): a finite sequence of bytes. -/
abbrev GoString := List Byte

/-- The bytes of a source literal, i.e. its UTF-8 encoding. -/
def lit (s : String) : GoString :=
  (s.toList.flatMap String.utf8EncodeChar).map (fun b => b.val)

/-- Byte constants used by the library code below. -/
def cSemi : Byte := 59
def cPercent : Byte := 37
def cAmp : Byte := 38
def cEq : Byte := 61
def cPlus : Byte := 43
def cSpace : Byte := 32
def cSlash : Byte := 47
def cDot : Byte := 46
def cMinus : Byte := 45
def cColon : Byte := 58
def cQuestion : Byte := 63
def cHash : Byte := 35
def cStar : Byte := 42

/-- Predicate `'0' <= c && c <= '9'`. -/
def isDigit (c : Byte) : Bool := 48 ≤ c.val && c.val ≤ 57

/-- Predicate `'a' <= c && c <= 'z'`. -/
def isLower (c : Byte) : Bool := 97 ≤ c.val && c.val ≤ 122

/-- Predicate `'A' <= c && c <= 'Z'`. -/
def isUpper (c : Byte) : Bool := 65 ≤ c.val && c.val ≤ 90

/-- Predicate for the alphabet `[a-zA-Z0-9]`. -/
def isAlnum (c : Byte) : Bool := isLower c || isUpper c || isDigit c

/-- Lowercase hexadecimal digits, `fmt`'s `ldigits`. -/
def ldigits : GoString := lit "0123456789abcdefx"

/-- Uppercase hexadecimal digits, `net/url`'s `upperhex`. -/
def upperhex : GoString := lit "0123456789ABCDEF"

/-- Predicate for a lowercase hexadecimal digit. -/
def isLowerHex (c : Byte) : Bool := isDigit c || (97 ≤ c.val && c.val ≤ 102)

/-! ## `strconv.FormatInt(i, 10)` -/

/-- The digit loop of `strconv.formatBits` in base 10, least significant
digit first, writing in front of `acc`. -/
def formatBits : Nat → Nat → GoString → GoString
  | 0, _, acc => acc
  | fuel + 1, u, acc =>
      if u < 10 then (Fin.ofNat (48 + u) : Byte) :: acc
      else formatBits fuel (u / 10) ((Fin.ofNat (48 + u % 10) : Byte) :: acc)

/-- Decimal rendering of an unsigned value. -/
def FormatUint (u : Nat) : GoString := formatBits (u + 1) u []

/-- Decimal rendering `strconv.FormatInt(i, 10)`: a minus sign for negative
values, then the digits of the magnitude. -/
def FormatInt (i : Int) : GoString :=
  if i < 0 then cMinus :: FormatUint i.natAbs else FormatUint i.natAbs

/-! ## `crypto/sha1` -/

namespace sha1

def chunk : Nat := 64

def init : List Nat := [0x67452301, 0xEFCDAB89, 0x98BADCFE, 0x10325476, 0xC3D2E1F0]

def K0 : Nat := 0x5A827999
def K1 : Nat := 0x6ED9EBA1
def K2 : Nat := 0x8F1BBCDC
def K3 : Nat := 0xCA62C1D6

/-- Truncation to `uint32`. -/
def u32 (x : Nat) : Nat := x % 2 ^ 32

/-- Rotation `bits.RotateLeft32` of a 32-bit word. -/
def RotateLeft32 (x k : Nat) : Nat := u32 (x <<< k) ||| (x >>> (32 - k))

/-- Bitwise complement of a 32-bit word. -/
def not32 (x : Nat) : Nat := 2 ^ 32 - 1 - x

/-- Big-endian load of the first `n` words of a block. -/
def loadWords : Nat → List Byte → List Nat
  | 0, _ => []
  | n + 1, b0 :: b1 :: b2 :: b3 :: rest =>
      (b0.val <<< 24 ||| b1.val <<< 16 ||| b2.val <<< 8 ||| b3.val) :: loadWords n rest
  | _ + 1, _ => []

/-- Round function of round `i`. -/
def f (i b c d : Nat) : Nat :=
  if i < 20 then (b &&& c) ||| (not32 b &&& d)
  else if i < 40 then b ^^^ c ^^^ d
  else if i < 60 then ((b ||| c) &&& d) ||| (b &&& c)
  else b ^^^ c ^^^ d

/-- Round constant of round `i`. -/
def K (i : Nat) : Nat :=
  if i < 20 then K0 else if i < 40 then K1 else if i < 60 then K2 else K3

/-- The five working variables. -/
structure Regs where
  a : Nat
  b : Nat
  c : Nat
  d : Nat
  e : Nat

/-- Rounds `i, i+1, ...` (`n` of them) of `blockGeneric` over the rolling
16-word schedule `w`. -/
def rounds : Nat → Nat → List Nat → Regs → Regs
  | 0, _, _, r => r
  | n + 1, i, w, r =>
      let w1 :=
        if i < 16 then w
        else
          let tmp := w.getD ((i - 3) % 16) 0 ^^^ w.getD ((i - 8) % 16) 0
            ^^^ w.getD ((i - 14) % 16) 0 ^^^ w.getD (i % 16) 0
          w.set (i % 16) (RotateLeft32 tmp 1)
      let t := u32 (RotateLeft32 r.a 5 + f i r.b r.c r.d + r.e + w1.getD (i % 16) 0 + K i)
      rounds n (i + 1) w1 ⟨t, r.a, RotateLeft32 r.b 30, r.c, r.d⟩

/-- One 64-byte block folded into the chaining value `h`. -/
def blockStep (h : List Nat) (p : List Byte) : List Nat :=
  let r := rounds 80 0 (loadWords 16 p)
    ⟨h.getD 0 0, h.getD 1 0, h.getD 2 0, h.getD 3 0, h.getD 4 0⟩
  [u32 (h.getD 0 0 + r.a), u32 (h.getD 1 0 + r.b), u32 (h.getD 2 0 + r.c),
   u32 (h.getD 3 0 + r.d), u32 (h.getD 4 0 + r.e)]

/-- The loop `for len(p) >= chunk` of `blockGeneric`. -/
def block : Nat → List Nat → List Byte → List Nat
  | 0, h, _ => h
  | n + 1, h, p => if p.length < chunk then h else block n (blockStep h p) (p.drop chunk)

/-- Big-endian bytes of a 64-bit value. -/
def putUint64 (x : Nat) : List Byte :=
  (List.range 8).map (fun i => Fin.ofNat (x >>> (8 * (7 - i))))

/-- Big-endian bytes of a 32-bit value. -/
def putUint32 (x : Nat) : List Byte :=
  [Fin.ofNat (x >>> 24), Fin.ofNat (x >>> 16), Fin.ofNat (x >>> 8), Fin.ofNat x]

/-- The padding `checkSum` appends to a message of `len` bytes: `0x80`, zeros
up to 56 modulo 64, then the length in bits. -/
def padding (len : Nat) : List Byte :=
  let t := if len % 64 < 56 then 56 - len % 64 else 64 + 56 - len % 64
  (0x80 : Byte) :: List.replicate (t - 1) 0 ++ putUint64 ((len <<< 3) % 2 ^ 64)

/-- The digest `sha1.Sum(data)`, a `[20]byte`. -/
def Sum (data : List Byte) : List Byte :=
  let p := data ++ padding data.length
  (block (p.length / chunk + 1) init p).flatMap putUint32

end sha1

/-! ## `fmt.Sprintf`, the fragment with `%s`, `%x`, the `0` flag and a width -/

/-- An operand of `Sprintf`. -/
inductive Arg where
  | str (s : GoString)
  | bytes (b : List Byte)

/-- The operand's bytes (`%s` and `%x` treat strings, slices and arrays of
bytes alike). -/
def Arg.data : Arg → List Byte
  | .str s => s
  | .bytes b => b

/-- Flags and width of one directive (`fmt.fmtFlags`, `wid`). -/
structure fmtFlags where
  zero : Bool
  wid : Nat
  widPresent : Bool

/-- Padding written by `fmt.writePadding(n)`. -/
def writePadding (fl : fmtFlags) (n : Nat) : GoString :=
  List.replicate n (if fl.zero then (48 : Byte) else cSpace)

/-- Verb `%s` (`fmtS`, `padString`).  Padding counts runes, which is not
modelled: a non-zero width is outside the fragment. -/
def fmtS (fl : fmtFlags) (s : GoString) : Option GoString :=
  if fl.widPresent && fl.wid != 0 then none else some s

/-- Verb `%x` on a string or bytes (`fmtSbx` with `ldigits`): two lowercase
hexadecimal digits per byte, padded on the left up to the width. -/
def fmtSbx (fl : fmtFlags) (b : List Byte) : GoString :=
  let width := 2 * b.length
  if width = 0 then (if fl.widPresent then writePadding fl fl.wid else [])
  else
    (if fl.widPresent && decide (fl.wid > width) then writePadding fl (fl.wid - width) else [])
      ++ b.flatMap (fun c => [ldigits.getD (c.val >>> 4) 0, ldigits.getD (c.val &&& 0xF) 0])

/-- Where `doPrintf` stands in the format string. -/
inductive Mode where
  | text
  | flags (fl : fmtFlags)
  | width (fl : fmtFlags)

/-- Output of one verb for the next operand. -/
def printArg (fl : fmtFlags) (verb : Byte) (a : Arg) : Option GoString :=
  if verb = 115 then fmtS fl a.data
  else if verb = 120 then some (fmtSbx fl a.data)
  else none

/-- The scanner `fmt.doPrintf`, one format byte per step.  `none` marks a
directive outside the modelled fragment (other flags or verbs, precision,
argument indexes, missing or extra operands). -/
def doPrintf : Mode → GoString → List Arg → Option GoString
  | .text, [], [] => some []
  | .text, [], _ :: _ => none
  | .text, c :: rest, a =>
      if c = cPercent then doPrintf (.flags ⟨false, 0, false⟩) rest a
      else (doPrintf .text rest a).map (c :: ·)
  | _, [], _ => none
  | .flags fl, c :: rest, a =>
      if c = 48 then doPrintf (.flags { fl with zero := true }) rest a
      else if isDigit c then
        doPrintf (.width { fl with wid := c.val - 48, widPresent := true }) rest a
      else if c = cPercent then (doPrintf .text rest a).map (cPercent :: ·)
      else
        match a with
        | [] => none
        | x :: a1 =>
            match printArg fl c x, doPrintf .text rest a1 with
            | some out, some tail => some (out ++ tail)
            | _, _ => none
  | .width fl, c :: rest, a =>
      if isDigit c then
        (if fl.wid > 1000000 then none
         else doPrintf (.width { fl with wid := fl.wid * 10 + (c.val - 48) }) rest a)
      else if c = cPercent then (doPrintf .text rest a).map (cPercent :: ·)
      else
        match a with
        | [] => none
        | x :: a1 =>
            match printArg fl c x, doPrintf .text rest a1 with
            | some out, some tail => some (out ++ tail)
            | _, _ => none

/-- The call `fmt.Sprintf(format, a...)`. -/
def Sprintf (format : GoString) (a : List Arg) : Option GoString :=
  doPrintf .text format a

/-! ## `strings` -/

/-- The call `strings.Cut(s, sep)` for a one-byte separator: the text before
the first `sep`, the text after it, and whether `sep` was found. -/
def Cut (s : GoString) (sep : Byte) : GoString × GoString × Bool :=
  match s with
  | [] => ([], [], false)
  | c :: rest =>
      if c = sep then ([], rest, true)
      else
        let r := Cut rest sep
        (c :: r.1, r.2.1, r.2.2)

/-- The call `strings.Split(s, sep)` for a one-byte separator. -/
def Split (s : GoString) (sep : Byte) : List GoString :=
  match s with
  | [] => [[]]
  | c :: rest =>
      if c = sep then [] :: Split rest sep
      else
        match Split rest sep with
        | [] => [[c]]
        | seg :: segs => (c :: seg) :: segs

/-- Test `strings.HasPrefix(s, p)`. -/
def startsWith : GoString → GoString → Bool
  | _, [] => true
  | [], _ :: _ => false
  | c :: s, d :: p => c == d && startsWith s p

/-- ASCII case folding, `strings.ToLower` on an ASCII string. -/
def ToLower (s : GoString) : GoString :=
  s.map (fun c => if isUpper c then (Fin.ofNat (c.val + 32) : Byte) else c)

/-! ## `path.Clean` and `path.Join` -/

/-- The backtracking loop of `Clean` on a `..` element: drop the last byte,
then keep dropping while above `dotdot` and the dropped byte is not `/`.
The buffer is kept in reverse. -/
def backtrack (dotdot : Nat) : GoString → GoString
  | [] => []
  | c :: out => if decide (out.length > dotdot) && c != cSlash then backtrack dotdot out else out

/-- The main loop of `path.Clean`: `p` is the unread input `path[r:]`, `out`
the written bytes in reverse, `dotdot` the index where `..` must stop. -/
def cleanLoop (rooted : Bool) : Nat → GoString → GoString → Nat → GoString
  | 0, _, out, _ => out
  | _ + 1, [], out, _ => out
  | fuel + 1, c :: rest, out, dotdot =>
      if c = cSlash then
        cleanLoop rooted fuel rest out dotdot
      else if c = cDot && (rest = [] || startsWith rest [cSlash]) then
        cleanLoop rooted fuel rest out dotdot
      else if c = cDot && startsWith rest [cDot]
          && (rest.drop 1 = [] || startsWith (rest.drop 1) [cSlash]) then
        if out.length > dotdot then
          cleanLoop rooted fuel (rest.drop 1) (backtrack dotdot out) dotdot
        else if !rooted then
          let out1 := cDot :: cDot :: (if out.length > 0 then cSlash :: out else out)
          cleanLoop rooted fuel (rest.drop 1) out1 out1.length
        else
          cleanLoop rooted fuel (rest.drop 1) out dotdot
      else
        let out1 :=
          if (rooted && out.length != 1) || (!rooted && out.length != 0) then cSlash :: out
          else out
        let elem := (c :: rest).takeWhile (fun b => b != cSlash)
        cleanLoop rooted fuel ((c :: rest).dropWhile (fun b => b != cSlash))
          (elem.reverse ++ out1) dotdot

/-- The function `path.Clean`. -/
def Clean (path : GoString) : GoString :=
  match path with
  | [] => [cDot]
  | c :: rest =>
      let rooted := c == cSlash
      let out :=
        if rooted then cleanLoop rooted (path.length + 1) rest [cSlash] 1
        else cleanLoop rooted (path.length + 1) path [] 0
      if out.length = 0 then [cDot] else out.reverse

/-- The buffer loop of `path.Join`: elements separated by `/`, leading empty
elements skipped. -/
def joinBuf : List GoString → GoString → GoString
  | [], buf => buf
  | e :: elem, buf =>
      if buf.length > 0 || e != [] then
        joinBuf elem ((if buf.length > 0 then buf ++ [cSlash] else buf) ++ e)
      else joinBuf elem buf

/-- The function `path.Join`. -/
def Join (elem : List GoString) : GoString :=
  if (elem.map List.length).sum = 0 then []
  else Clean (joinBuf elem [])

/-! ## `net/url` -/

/-- The escaping modes of `net/url`. -/
inductive Encoding where
  | encodePath
  | encodePathSegment
  | encodeHost
  | encodeZone
  | encodeUserPassword
  | encodeQueryComponent
  | encodeFragment
  deriving DecidableEq

/-- Membership of a byte in a literal set of ASCII characters, as in a
`case 'a', 'b':` list. -/
def oneOf (c : Byte) (set : String) : Bool := set.toList.any (fun ch => ch.toNat == c.val)

/-- The function `shouldEscape(c, mode)`. -/
def shouldEscape (c : Byte) (mode : Encoding) : Bool :=
  if isLower c || isUpper c || isDigit c then false
  else if (mode = .encodeHost || mode = .encodeZone) && oneOf c "!$&'()*+,;=:[]<>\"" then false
  else if oneOf c "-_.~" then false
  else if oneOf c "$&+,/:;=?@" then
    match mode with
    | .encodePath => c == cQuestion
    | .encodePathSegment => oneOf c "/;,?"
    | .encodeUserPassword => oneOf c "@/?:"
    | .encodeQueryComponent => true
    | .encodeFragment => false
    | _ => true
  else if mode = .encodeFragment && oneOf c "!()*" then false
  else true

/-- The bytes `escape` writes for one byte: `+` for a space in a query
component, `%XX` for every other byte that `shouldEscape`, the byte itself
otherwise. -/
def escapeByte (mode : Encoding) (c : Byte) : GoString :=
  if c = cSpace && mode = .encodeQueryComponent then [cPlus]
  else if shouldEscape c mode then
    [cPercent, upperhex.getD (c.val >>> 4) 0, upperhex.getD (c.val &&& 15) 0]
  else [c]

/-- The function `escape(s, mode)`. -/
def escape (s : GoString) (mode : Encoding) : GoString :=
  s.flatMap (escapeByte mode)

/-- The call `QueryEscape(s)`. -/
def QueryEscape (s : GoString) : GoString := escape s .encodeQueryComponent

/-- Test `ishex(c)`. -/
def ishex (c : Byte) : Bool :=
  isDigit c || (97 ≤ c.val && c.val ≤ 102) || (65 ≤ c.val && c.val ≤ 70)

/-- Value `unhex(c)` of a hexadecimal digit. -/
def unhex (c : Byte) : Nat :=
  if isDigit c then c.val - 48
  else if 97 ≤ c.val && c.val ≤ 102 then c.val - 97 + 10
  else if 65 ≤ c.val && c.val ≤ 70 then c.val - 65 + 10
  else 0

/-- Errors of the calls modelled here.  `notModelled` marks an input outside
the modelled fragment of a library routine. -/
inductive Err where
  | msg (m : GoString)
  | notModelled
  deriving DecidableEq

/-- Prepend a decoded byte to the decoding of the rest, keeping its error. -/
def consOk (c : Byte) : Except Err GoString → Except Err GoString
  | .ok t => .ok (c :: t)
  | .error e => .error e

/-- The function `unescape(s, mode)`: validation and decoding in one pass.
A `%` must be followed by two hexadecimal digits; in a host only non-ASCII
bytes (and `%25`) may be escaped and unescaped ASCII bytes must be allowed
in a host; `+` is a space in a query component. -/
def unescape (s : GoString) (mode : Encoding) : Except Err GoString :=
  match s with
  | [] => .ok []
  | c :: rest =>
      if c = cPercent then
        match rest with
        | h1 :: h2 :: rest2 =>
            if !ishex h1 || !ishex h2 then .error (.msg (lit "invalid URL escape"))
            else if mode = .encodeHost && decide (unhex h1 < 8) && [h1, h2] != lit "25" then
              .error (.msg (lit "invalid URL escape"))
            else if mode = .encodeZone && [h1, h2] != lit "25"
                && (Fin.ofNat (unhex h1 <<< 4 ||| unhex h2) : Byte) != cSpace
                && shouldEscape (Fin.ofNat (unhex h1 <<< 4 ||| unhex h2)) .encodeHost then
              .error (.msg (lit "invalid URL escape"))
            else consOk (Fin.ofNat (unhex h1 <<< 4 ||| unhex h2)) (unescape rest2 mode)
        | _ => .error (.msg (lit "invalid URL escape"))
      else if c = cPlus then
        consOk (if mode = .encodeQueryComponent then cSpace else cPlus) (unescape rest mode)
      else if (mode = .encodeHost || mode = .encodeZone) && decide (c.val < 128)
          && shouldEscape c .encodeHost then
        .error (.msg (lit "invalid character in host name"))
      else consOk c (unescape rest mode)

/-- The call `QueryUnescape(s)`. -/
def QueryUnescape (s : GoString) : Except Err GoString := unescape s .encodeQueryComponent

/-- The function `validEncoded(s, mode)`. -/
def validEncoded (s : GoString) (mode : Encoding) : Bool :=
  s.all fun c => oneOf c "!$&'()*+,;=:@[]%" || !shouldEscape c mode

/-- The type `url.URL`, without `User` (userinfo is not modelled). -/
structure URL where
  Scheme : GoString := []
  Opaque : GoString := []
  Host : GoString := []
  Path : GoString := []
  RawPath : GoString := []
  OmitHost : Bool := false
  ForceQuery : Bool := false
  RawQuery : GoString := []
  Fragment : GoString := []
  RawFragment : GoString := []
  deriving DecidableEq

/-- The method `setPath`. -/
def URL.setPath (u : URL) (p : GoString) : Except Err URL :=
  match unescape p .encodePath with
  | .error e => .error e
  | .ok path =>
      .ok { u with Path := path, RawPath := if p = escape path .encodePath then [] else p }

/-- The method `setFragment`. -/
def URL.setFragment (u : URL) (f : GoString) : Except Err URL :=
  match unescape f .encodeFragment with
  | .error e => .error e
  | .ok frag =>
      .ok { u with
        Fragment := frag, RawFragment := if f = escape frag .encodeFragment then [] else f }

/-- Test that `unescape(raw, mode)` succeeds with the result `want`. -/
def unescapesTo (raw : GoString) (mode : Encoding) (want : GoString) : Bool :=
  match unescape raw mode with
  | .ok p => p == want
  | .error _ => false

/-- The method `EscapedPath`. -/
def URL.EscapedPath (u : URL) : GoString :=
  if u.RawPath != [] && validEncoded u.RawPath .encodePath
      && unescapesTo u.RawPath .encodePath u.Path then u.RawPath
  else if u.Path = [cStar] then [cStar]
  else escape u.Path .encodePath

/-- The method `EscapedFragment`. -/
def URL.EscapedFragment (u : URL) : GoString :=
  if u.RawFragment != [] && validEncoded u.RawFragment .encodeFragment
      && unescapesTo u.RawFragment .encodeFragment u.Fragment then u.RawFragment
  else escape u.Fragment .encodeFragment

/-- Test `stringContainsCTLByte(s)`. -/
def stringContainsCTLByte (s : GoString) : Bool :=
  s.any fun b => decide (b.val < 32) || b.val == 0x7f

/-- The scan of `getScheme`: `i` bytes of `rawURL` have been read and `rest`
remains. -/
def getSchemeLoop (rawURL : GoString) : Nat → GoString → Except Err (GoString × GoString)
  | _, [] => .ok ([], rawURL)
  | i, c :: rest =>
      if isLower c || isUpper c then getSchemeLoop rawURL (i + 1) rest
      else if isDigit c || c = cPlus || c = cMinus || c = cDot then
        if i = 0 then .ok ([], rawURL) else getSchemeLoop rawURL (i + 1) rest
      else if c = cColon then
        if i = 0 then .error (.msg (lit "missing protocol scheme"))
        else .ok (rawURL.take i, rest)
      else .ok ([], rawURL)

/-- The function `getScheme(rawURL)`: the scheme and the rest. -/
def getScheme (rawURL : GoString) : Except Err (GoString × GoString) :=
  getSchemeLoop rawURL 0 rawURL

/-- Test `validOptionalPort(port)`. -/
def validOptionalPort (port : GoString) : Bool :=
  match port with
  | [] => true
  | c :: digits => c == cColon && digits.all isDigit

/-- The suffix of `host` from its last `:` on, if it has one. -/
def lastColonPart (host : GoString) : Option GoString :=
  if host.contains cColon then
    some (cColon :: (host.reverse.takeWhile (fun b => b != cColon)).reverse)
  else none

/-- The function `parseHost(host)` for a host without brackets. -/
def parseHost (host : GoString) : Except Err GoString :=
  if startsWith host (lit "[") then .error .notModelled
  else
    match lastColonPart host with
    | some colonPort =>
        if !validOptionalPort colonPort then .error (.msg (lit "invalid port after host"))
        else unescape host .encodeHost
    | none => unescape host .encodeHost

/-- The function `parseAuthority(authority)` for an authority without
userinfo. -/
def parseAuthority (authority : GoString) : Except Err GoString :=
  if authority.contains 64 then .error .notModelled
  else parseHost authority

/-- The function `parse(rawURL, viaRequest)` with `viaRequest = false`. -/
def parse (rawURL : GoString) : Except Err URL :=
  if stringContainsCTLByte rawURL then
    .error (.msg (lit "net/url: invalid control character in URL"))
  else if rawURL = [cStar] then .ok { Path := [cStar] }
  else
    match getScheme rawURL with
    | .error e => .error e
    | .ok (scheme0, rest0) =>
        let scheme := ToLower scheme0
        let forceQuery := rest0.getLast? == some cQuestion && rest0.count cQuestion == 1
        let rest := if forceQuery then rest0.dropLast else (Cut rest0 cQuestion).1
        let rawQuery := if forceQuery then [] else (Cut rest0 cQuestion).2.1
        let url : URL := { Scheme := scheme, ForceQuery := forceQuery, RawQuery := rawQuery }
        if !startsWith rest [cSlash] && scheme != [] then
          .ok { url with Opaque := rest }
        else if !startsWith rest [cSlash] && (Cut rest cSlash).1.contains cColon then
          .error (.msg (lit "first path segment in URL cannot contain colon"))
        else if (scheme != [] || !startsWith rest (lit "///")) && startsWith rest (lit "//") then
          let authority := (rest.drop 2).takeWhile (fun b => b != cSlash)
          let rest1 := (rest.drop 2).dropWhile (fun b => b != cSlash)
          match parseAuthority authority with
          | .error e => .error e
          | .ok host => { url with Host := host }.setPath rest1
        else if scheme != [] && startsWith rest [cSlash] then
          { url with OmitHost := true }.setPath rest
        else url.setPath rest

/-- The function `url.Parse(rawURL)`. -/
def Parse (rawURL : GoString) : Except Err URL :=
  let c := Cut rawURL cHash
  match parse c.1 with
  | .error e => .error e
  | .ok url => if c.2.1 = [] then .ok url else url.setFragment c.2.1

/-- The part `base[:i+1]` of `resolvePath`, with `i` the last index of `/`. -/
def upToLastSlash (base : GoString) : GoString :=
  (base.reverse.dropWhile (fun b => b != cSlash)).reverse

/-- The text before the last `/` of `str`, or `none` without a `/`. -/
def beforeLastSlash (str : GoString) : Option GoString :=
  if str.contains cSlash then
    some ((str.reverse.dropWhile (fun b => b != cSlash)).drop 1).reverse
  else none

/-- The element loop of `resolvePath`: `dst` is the output after its leading
`/`, `first` tells whether the next element starts the output. -/
def resolveLoop : List GoString → GoString → Bool → GoString
  | [], dst, _ => dst
  | elem :: rest, dst, first =>
      if elem = [cDot] then resolveLoop rest dst false
      else if elem = [cDot, cDot] then
        match beforeLastSlash dst with
        | none => resolveLoop rest [] true
        | some d => resolveLoop rest d first
      else resolveLoop rest ((if first then dst else dst ++ [cSlash]) ++ elem) false

/-- The function `resolvePath(base, ref)`. -/
def resolvePath (base ref : GoString) : GoString :=
  let full :=
    if ref = [] then base
    else if !startsWith ref [cSlash] then upToLastSlash base ++ ref
    else ref
  if full = [] then []
  else
    let elems := Split full cSlash
    let dst := resolveLoop elems [] true
    let dst1 :=
      if elems.getLast? = some [cDot] || elems.getLast? = some [cDot, cDot] then dst ++ [cSlash]
      else dst
    if startsWith dst1 [cSlash] then dst1 else cSlash :: dst1

/-- The method `ResolveReference`; `setPath` cannot fail here and its error
is ignored as in the library. -/
def URL.ResolveReference (u ref : URL) : URL :=
  let url : URL := if ref.Scheme = [] then { ref with Scheme := u.Scheme } else ref
  let set (v : URL) (p : GoString) : URL :=
    match v.setPath p with
    | .ok w => w
    | .error _ => v
  if ref.Scheme != [] || ref.Host != [] then
    set url (resolvePath ref.EscapedPath [])
  else if ref.Opaque != [] then
    { url with Host := [], Path := [] }
  else
    let url1 : URL :=
      if ref.Path = [] && !ref.ForceQuery && ref.RawQuery = [] then
        if ref.Fragment = [] then
          { url with RawQuery := u.RawQuery, Fragment := u.Fragment, RawFragment := u.RawFragment }
        else { url with RawQuery := u.RawQuery }
      else url
    if ref.Path = [] && u.Opaque != [] then
      { url1 with Opaque := u.Opaque, Host := [], Path := [] }
    else
      set { url1 with Host := u.Host } (resolvePath u.EscapedPath ref.EscapedPath)

/-- The method `(*URL).Parse(ref)`. -/
def URL.Parse (u : URL) (ref : GoString) : Except Err URL :=
  match NearlyFreeSpeech.Parse ref with
  | .error e => .error e
  | .ok refURL => .ok (u.ResolveReference refURL)

/-- The method `String`. -/
def URL.String (u : URL) : GoString :=
  let scheme := if u.Scheme != [] then u.Scheme ++ [cColon] else []
  let body :=
    if u.Opaque != [] then scheme ++ u.Opaque
    else
      let auth :=
        if u.Scheme != [] || u.Host != [] then
          if u.OmitHost && u.Host = [] then []
          else
            (if u.Host != [] || u.Path != [] then lit "//" else [])
              ++ (if u.Host != [] then escape u.Host .encodeHost else [])
        else []
      let path := u.EscapedPath
      let buf := scheme ++ auth
      let buf1 :=
        if path != [] && !startsWith path [cSlash] && u.Host != [] then buf ++ [cSlash] else buf
      let buf2 :=
        if buf1 = [] && (Cut path cSlash).1.contains cColon then lit "./" else buf1
      buf2 ++ path
  let query := if u.ForceQuery || u.RawQuery != [] then cQuestion :: u.RawQuery else []
  let frag := if u.Fragment != [] then cHash :: u.EscapedFragment else []
  body ++ query ++ frag

/-- The loop of `url.ParseQuery`, the decoder of
`application/x-www-form-urlencoded` bodies: the pieces between `&` are cut
at their first `=`, both sides are unescaped (`%XX`, `+` for a space) and
the value is added under the key.  An empty piece is skipped; a piece with
a `;` or a bad escape is an error. -/
def parseQueryPieces : List GoString → List (GoString × List GoString) →
    Except Err (List (GoString × List GoString))
  | [], m => .ok m
  | piece :: rest, m =>
      if piece.contains cSemi then .error (.msg (lit "invalid semicolon separator in query"))
      else if piece = [] then parseQueryPieces rest m
      else
        match unescape (Cut piece cEq).1 .encodeQueryComponent,
            unescape (Cut piece cEq).2.1 .encodeQueryComponent with
        | .ok key, .ok value =>
            parseQueryPieces rest
              (if m.any (fun kv => kv.1 == key) then
                m.map (fun kv => if kv.1 == key then (kv.1, kv.2 ++ [value]) else kv)
              else m ++ [(key, [value])])
        | .error e, _ => .error e
        | _, .error e => .error e

/-! ## `url.Values` and `go-querystring` -/

/-- The type `url.Values`, a map from keys to lists of values, as an
association list with distinct keys. -/
abbrev Values := List (GoString × List GoString)

/-- The method `Values.Add(key, value)`. -/
def Values.Add (v : Values) (key value : GoString) : Values :=
  if v.any (fun kv => kv.1 == key) then
    v.map (fun kv => if kv.1 == key then (kv.1, kv.2 ++ [value]) else kv)
  else v ++ [(key, [value])]

/-- The call `url.ParseQuery(query)`. -/
def ParseQuery (query : GoString) : Except Err Values :=
  parseQueryPieces (Split query cAmp) []

/-- Byte-wise lexicographic `a < b` on strings. -/
def strLess : GoString → GoString → Bool
  | _, [] => false
  | [], _ :: _ => true
  | a :: as, b :: bs => decide (a.val < b.val) || (a == b && strLess as bs)

/-- Insertion of a key into a sorted list of keys. -/
def insertKey (k : GoString) : List GoString → List GoString
  | [] => [k]
  | x :: xs => if strLess x k then x :: insertKey k xs else k :: x :: xs

/-- Result of `sort.Strings(keys)`. -/
def sortStrings : List GoString → List GoString
  | [] => []
  | k :: ks => insertKey k (sortStrings ks)

/-- The inner loop of `Encode` over the values of one key. -/
def encodeValues (keyEscaped : GoString) : List GoString → GoString → GoString
  | [], buf => buf
  | v :: vs, buf =>
      encodeValues keyEscaped vs
        ((if buf.length > 0 then buf ++ [cAmp] else buf) ++ keyEscaped ++ [cEq] ++ QueryEscape v)

/-- The outer loop of `Encode` over the sorted keys. -/
def encodeKeys (v : Values) : List GoString → GoString → GoString
  | [], buf => buf
  | k :: keys, buf =>
      encodeKeys v keys (encodeValues (QueryEscape k) ((v.lookup k).getD []) buf)

/-- The method `Values.Encode()`: `key=value` pairs joined by `&`, sorted by
key. -/
def Values.Encode (v : Values) : GoString :=
  if v.length = 0 then []
  else encodeKeys v (sortStrings (v.map (fun kv => kv.1))) []

/-- The record sent to the API. -/
structure Record where
  Name : GoString
  Type_ : GoString
  Data : GoString
  TTL : Int

/-- The value of a struct field as reflection sees it. -/
inductive FieldValue where
  | string (s : GoString)
  | int (i : Int)

/-- A struct field: its Go name, its `url` tag and its value. -/
structure Field where
  goName : GoString
  tag : GoString
  value : FieldValue

/-- The fields of `Record` in declaration order, with their `url` tags. -/
def Record.fields (r : Record) : List Field :=
  [⟨lit "Name", lit "name,omitempty", .string r.Name⟩,
   ⟨lit "Type", lit "type,omitempty", .string r.Type_⟩,
   ⟨lit "Data", lit "data,omitempty", .string r.Data⟩,
   ⟨lit "TTL", lit "ttl,omitempty", .int r.TTL⟩]

/-- The function `isEmptyValue` of `go-querystring` for strings and ints. -/
def isEmptyValue : FieldValue → Bool
  | .string s => s.length == 0
  | .int i => i == 0

/-- The function `valueString` of `go-querystring`, i.e. `fmt.Sprint` of the
field. -/
def valueString : FieldValue → GoString
  | .string s => s
  | .int i => FormatInt i

/-- The field loop of `reflectValue` in `go-querystring`. -/
def reflectValue (values : Values) : List Field → Values
  | [] => values
  | sf :: rest =>
      if sf.tag = lit "-" then reflectValue values rest
      else
        let parts := Split sf.tag 44
        let name := if parts.headD [] = [] then sf.goName else parts.headD []
        let opts := parts.drop 1
        if opts.contains (lit "omitempty") && isEmptyValue sf.value then reflectValue values rest
        else reflectValue (Values.Add values name (valueString sf.value)) rest

/-- The call `querystring.Values(record)`. -/
def querystringValues (record : Record) : Except Err Values :=
  .ok (reflectValue [] record.fields)

/-! ## `net/http` -/

/-- Test `validHeaderFieldByte(c)`: the token characters of RFC 7230. -/
def validHeaderFieldByte (c : Byte) : Bool := isAlnum c || oneOf c "!#$%&'*+-.^_`|~"

/-- The letter-case loop of `canonicalMIMEHeaderKey`. -/
def canonicalLoop : Bool → GoString → GoString
  | _, [] => []
  | upper, c :: rest =>
      let c1 : Byte :=
        if upper && isLower c then Fin.ofNat (c.val - 32)
        else if !upper && isUpper c then Fin.ofNat (c.val + 32)
        else c
      c1 :: canonicalLoop (c1 == cMinus) rest

/-- The function `textproto.CanonicalMIMEHeaderKey`. -/
def CanonicalMIMEHeaderKey (s : GoString) : GoString :=
  if s.all validHeaderFieldByte then canonicalLoop true s else s

/-- The type `http.Header`. -/
abbrev Header := List (GoString × List GoString)

/-- The method `Header.Set(key, value)`. -/
def Header.Set (h : Header) (key value : GoString) : Header :=
  (CanonicalMIMEHeaderKey key, [value])
    :: h.filter (fun kv => kv.1 != CanonicalMIMEHeaderKey key)

/-- The method `Header.Get(key)`; `none` stands for the empty result of a
missing key. -/
def Header.Get (h : Header) (key : GoString) : Option GoString :=
  match h.lookup (CanonicalMIMEHeaderKey key) with
  | some (v :: _) => some v
  | _ => none

/-- The request handed to the transport. -/
structure Request where
  Method : GoString
  URL : URL
  Header : Header
  Body : GoString

/-- The response of the transport; `Body` is what `io.ReadAll(resp.Body)`
yields. -/
structure Response where
  Status : GoString
  StatusCode : Int
  Body : GoString

/-- The function `removeEmptyPort(host)` of `net/http`. -/
def removeEmptyPort (host : GoString) : GoString :=
  if host.contains cColon
      && !(host.reverse.takeWhile (fun b => b != cColon)).contains 93
      && host.getLast? == some cColon then host.dropLast
  else host

/-- The call `http.NewRequest(method, url, strings.NewReader(body))` for a
valid method. -/
def NewRequest (method url body : GoString) : Except Err Request :=
  match Parse url with
  | .error e => .error e
  | .ok u =>
      .ok { Method := method, URL := { u with Host := removeEmptyPort u.Host },
            Header := [], Body := body }

/-! ## The random source and the clock -/

/-- State of the global `math/rand` source: the stream of raw outcomes still
to come. -/
abbrev Rand := Nat → Nat

/-- The call `rand.Intn(n)` for `n > 0`: an outcome in `[0, n)` and the
advanced source. -/
def Rand.Intn (r : Rand) (n : Nat) (h : 0 < n) : Fin n × Rand :=
  (⟨r 0 % n, Nat.mod_lt _ h⟩, fun i => r (i + 1))

/-! ## The client -/

def apiURL : GoString := lit "https://api.nearlyfreespeech.net"

def authenticationHeader : GoString := lit "X-NFSN-Authentication"

def saltBytes : GoString := lit "abcdefghijklmnopqrstuvwxyzABCDEFGHIJKLMNOPQRSTUVWXYZ0123456789"

/-- The loop filling `salt[i]` for the remaining `n` positions. -/
def saltLoop : Nat → Rand → GoString × Rand
  | 0, r => ([], r)
  | n + 1, r =>
      let d := r.Intn saltBytes.length (by decide)
      let rest := saltLoop n d.2
      (saltBytes.get d.1 :: rest.1, rest.2)

/-- The client: credentials, base URL and the transport `HTTPClient.Do`. -/
structure Client where
  HTTPClient : Request → Except Err Response
  login : GoString
  apiKey : GoString
  baseURL : URL

/-- The constructor `NewClient`; the transport stands for the behaviour of
the `http.Client` it creates. -/
def NewClient (transport : Request → Except Err Response) (login apiKey : GoString) : Client :=
  { HTTPClient := transport, login := login, apiKey := apiKey,
    baseURL := match Parse apiURL with
      | .ok u => u
      | .error _ => {} }

/-- The method `createSignature`: `rng` is the random source at the call and
`now` the value of `time.Now().Unix()` during it.  The header and the
advanced random source are returned. -/
def Client.createSignature (c : Client) (uri body : GoString) (rng : Rand) (now : Int) :
    Option (GoString × Rand) :=
  let salt := saltLoop 16 rng
  let bodyHash := sha1.Sum body
  let timestamp := FormatInt now
  match Sprintf (lit "%s;%s;%s;%s;%s;%02x")
      [.str c.login, .str timestamp, .bytes salt.1, .str c.apiKey, .str uri, .bytes bodyHash] with
  | none => none
  | some hashInput =>
      match Sprintf (lit "%s;%s;%s;%02x")
          [.str c.login, .str timestamp, .bytes salt.1, .bytes (sha1.Sum hashInput)] with
      | none => none
      | some header => some (header, salt.2)

/-- The first part of the method `do`, up to the request handed to
`HTTPClient.Do`. -/
def Client.buildRequest (c : Client) (uri : GoString) (params : Values) (rng : Rand)
    (now : Int) : Except Err (Request × Rand) :=
  match c.baseURL.Parse (Join [c.baseURL.Path, uri]) with
  | .error e => .error e
  | .ok endpoint =>
      let payload := Values.Encode params
      match NewRequest (lit "POST") endpoint.String payload with
      | .error e => .error e
      | .ok req =>
          let header1 :=
            Header.Set req.Header (lit "Content-Type") (lit "application/x-www-form-urlencoded")
          match c.createSignature endpoint.Path payload rng now with
          | none => .error .notModelled
          | some sig =>
              .ok ({ req with Header := Header.Set header1 authenticationHeader sig.1 }, sig.2)

/-- The second part of the method `do`: the response check. -/
def checkResponse (resp : Response) : Except Err Unit :=
  if resp.StatusCode ≠ 200 then
    match Sprintf (lit "%s: %s") [.str resp.Status, .bytes resp.Body] with
    | some m => .error (.msg m)
    | none => .error .notModelled
  else .ok ()

/-- The method `do`. -/
def Client.do_ (c : Client) (uri : GoString) (params : Values) (rng : Rand) (now : Int) :
    Except Err Unit :=
  match c.buildRequest uri params rng now with
  | .error e => .error e
  | .ok built =>
      match c.HTTPClient built.1 with
      | .error e => .error e
      | .ok resp => checkResponse resp

/-- The method `AddRecord`. -/
def Client.AddRecord (c : Client) (domain : GoString) (record : Record) (rng : Rand)
    (now : Int) : Except Err Unit :=
  match querystringValues record with
  | .error e => .error e
  | .ok params => c.do_ (Join [lit "dns", domain, lit "addRR"]) params rng now

/-- The method `RemoveRecord`. -/
def Client.RemoveRecord (c : Client) (domain : GoString) (record : Record) (rng : Rand)
    (now : Int) : Except Err Unit :=
  match querystringValues record with
  | .error e => .error e
  | .ok params => c.do_ (Join [lit "dns", domain, lit "removeRR"]) params rng now

/-! ## Reference notions used in the statements -/

/-- Lowercase hexadecimal digit of a value below 16. -/
def hexDigit (n : Nat) : Byte := if n < 10 then Fin.ofNat (48 + n) else Fin.ofNat (87 + n)

/-- Lowercase hexadecimal rendering, two digits per byte. -/
def hexLower (b : List Byte) : GoString :=
  b.flatMap fun c => [hexDigit (c.val / 16), hexDigit (c.val % 16)]

/-- The header and the string hashed into it, for timestamp `t` and salt `s`. -/
def signedHeader (login apiKey uri body t s : GoString) : GoString :=
  login ++ [cSemi] ++ t ++ [cSemi] ++ s ++ [cSemi]
    ++ hexLower (sha1.Sum (login ++ [cSemi] ++ t ++ [cSemi] ++ s ++ [cSemi] ++ apiKey
        ++ [cSemi] ++ uri ++ [cSemi] ++ hexLower (sha1.Sum body)))

/-- The body `AddRecord` and `RemoveRecord` send for a record: the result of
`querystring.Values` encoded by `Values.Encode`, as `do` computes it. -/
def encodedBody (record : Record) : Except Err GoString :=
  match querystringValues record with
  | .error e => .error e
  | .ok params => .ok (Values.Encode params)

/-- The parameters of a record that are not omitted, sorted by key. -/
def sortedParams (r : Record) : List (GoString × GoString) :=
  (if r.Data = [] then [] else [(lit "data", r.Data)])
    ++ (if r.Name = [] then [] else [(lit "name", r.Name)])
    ++ (if r.TTL = 0 then [] else [(lit "ttl", FormatInt r.TTL)])
    ++ (if r.Type_ = [] then [] else [(lit "type", r.Type_)])

/-- The parameter `key=value` with the value escaped. -/
def paramText (kv : GoString × GoString) : GoString := kv.1 ++ cEq :: QueryEscape kv.2

/-- Parameters joined by `&`. -/
def joinParams : List (GoString × GoString) → GoString
  | [] => []
  | [kv] => paramText kv
  | kv :: rest => paramText kv ++ cAmp :: joinParams rest

/-- The raw parameters of a form body: the pieces between `&`, each cut at
its first `=`. -/
def rawParams (body : GoString) : List (GoString × GoString) :=
  if body = [] then []
  else (Split body cAmp).map (fun p => ((Cut p cEq).1, (Cut p cEq).2.1))

/-- The parameters of a record that are not omitted, in declaration order. -/
def declaredParams (r : Record) : Values :=
  (if r.Name = [] then [] else [(lit "name", [r.Name])])
    ++ (if r.Type_ = [] then [] else [(lit "type", [r.Type_])])
    ++ (if r.Data = [] then [] else [(lit "data", [r.Data])])
    ++ (if r.TTL = 0 then [] else [(lit "ttl", [FormatInt r.TTL])])

/-- The four keys of the `url` tags of `Record`. -/
def recordKeys : List GoString := [lit "data", lit "name", lit "ttl", lit "type"]

/-- Path segments joined by `/`. -/
def joinSlash : List GoString → GoString
  | [] => []
  | [s] => s
  | s :: rest => s ++ cSlash :: joinSlash rest

/-- A real path element: not empty, without `/`, and neither `.` nor `..`. -/
def isRealSegment (s : GoString) : Bool :=
  s != [] && !s.contains cSlash && s != [cDot] && s != [cDot, cDot]

/-- A byte of a hostname label: a letter, a digit or `-`. -/
def isLabelByte (c : Byte) : Bool := isAlnum c || c == cMinus

/-- A hostname: labels of letters, digits and `-`, none empty, separated by
single dots. -/
def isHostname (d : GoString) : Bool :=
  (Split d cDot).all (fun l => l != [] && l.all isLabelByte)

/-! ## Theorems -/

/-! ### Hexadecimal rendering, SHA-1 length and `Sprintf` -/

set_option maxRecDepth 100000 in
theorem ldigits_hi (c : Byte) : ldigits.getD (c.val >>> 4) 0 = hexDigit (c.val / 16) := by
  revert c; decide

set_option maxRecDepth 100000 in
theorem ldigits_lo (c : Byte) : ldigits.getD (c.val &&& 0xF) 0 = hexDigit (c.val % 16) := by
  revert c; decide

theorem fmtSbx_eq_hexLower (b : List Byte) (hb : b ≠ []) :
    fmtSbx ⟨true, 2, true⟩ b = hexLower b := by
  have hlen : 0 < b.length := List.length_pos.mpr hb
  unfold fmtSbx hexLower
  have h1 : ¬ (2 * b.length = 0) := by omega
  have h2 : ¬ (2 > 2 * b.length) := by omega
  simp only [h1, h2, if_false, decide_False, Bool.and_false, List.nil_append, ldigits_hi, ldigits_lo]
  simp



theorem sha1_block_length (n : Nat) (h : List Nat) (p : List Byte) (hh : h.length = 5) :
    (sha1.block n h p).length = 5 := by
  induction n generalizing h p with
  | zero => simpa [sha1.block] using hh
  | succ n ih =>
      unfold sha1.block
      split
      · exact hh
      · exact ih _ _ (by simp [sha1.blockStep])

theorem flatMap_putUint32_length (l : List Nat) :
    (l.flatMap sha1.putUint32).length = 4 * l.length := by
  induction l with
  | nil => rfl
  | cons x xs ih => simp [List.flatMap_cons, sha1.putUint32, ih]; omega

theorem sha1_Sum_length (data : List Byte) : (sha1.Sum data).length = 20 := by
  unfold sha1.Sum
  simp only [flatMap_putUint32_length]
  rw [sha1_block_length _ _ _ (by rfl)]

theorem sha1_Sum_ne_nil (data : List Byte) : sha1.Sum data ≠ [] := by
  intro h
  have := sha1_Sum_length data
  rw [h] at this
  simp at this

theorem fmt_hashInput : lit "%s;%s;%s;%s;%s;%02x"
    = [37, 115, 59, 37, 115, 59, 37, 115, 59, 37, 115, 59, 37, 115, 59, 37, 48, 50, 120] := by
  decide

theorem fmt_header : lit "%s;%s;%s;%02x"
    = [37, 115, 59, 37, 115, 59, 37, 115, 59, 37, 48, 50, 120] := by
  decide

theorem Sprintf_hashInput (a b c d e x : GoString) (hx : x ≠ []) :
    Sprintf (lit "%s;%s;%s;%s;%s;%02x")
      [.str a, .str b, .bytes c, .str d, .str e, .bytes x]
    = some (a ++ [cSemi] ++ b ++ [cSemi] ++ c ++ [cSemi] ++ d ++ [cSemi] ++ e ++ [cSemi]
        ++ hexLower x) := by
  have d1 : isDigit (115 : Byte) = false := by decide
  have d2 : isDigit (50 : Byte) = true := by decide
  have d3 : isDigit (120 : Byte) = false := by decide
  have d4 : ((50 : Byte).val - 48) = 2 := by decide
  rw [fmt_hashInput]
  simp [Sprintf, doPrintf, printArg, fmtS, cPercent, d1, d2, d3, d4, Arg.data, cSemi,
    fmtSbx_eq_hexLower x hx]

theorem Sprintf_header (a b c x : GoString) (hx : x ≠ []) :
    Sprintf (lit "%s;%s;%s;%02x") [.str a, .str b, .bytes c, .bytes x]
    = some (a ++ [cSemi] ++ b ++ [cSemi] ++ c ++ [cSemi] ++ hexLower x) := by
  have d1 : isDigit (115 : Byte) = false := by decide
  have d2 : isDigit (50 : Byte) = true := by decide
  have d3 : isDigit (120 : Byte) = false := by decide
  have d4 : ((50 : Byte).val - 48) = 2 := by decide
  rw [fmt_header]
  simp [Sprintf, doPrintf, printArg, fmtS, cPercent, d1, d2, d3, d4, Arg.data, cSemi,
    fmtSbx_eq_hexLower x hx]

theorem createSignature_eq (c : Client) (uri body : GoString) (rng : Rand) (now : Int) :
    c.createSignature uri body rng now
      = some (signedHeader c.login c.apiKey uri body (FormatInt now) (saltLoop 16 rng).1,
          (saltLoop 16 rng).2) := by
  unfold Client.createSignature
  simp only [Sprintf_hashInput _ _ _ _ _ _ (sha1_Sum_ne_nil body),
    Sprintf_header _ _ _ _ (sha1_Sum_ne_nil _), signedHeader]

/-! ### Splitting, digits and the salt -/

theorem Split_no_sep (a : GoString) (sep : Byte) (h : sep ∉ a) : Split a sep = [a] := by
  induction a with
  | nil => rfl
  | cons x xs ih =>
      have hx : x ≠ sep := fun e => h (by simp [e])
      have hxs : sep ∉ xs := fun e => h (by simp [e])
      simp [Split, hx, ih hxs]

theorem Split_append_sep (a b : GoString) (sep : Byte) (h : sep ∉ a) :
    Split (a ++ sep :: b) sep = a :: Split b sep := by
  induction a with
  | nil => simp [Split]
  | cons x xs ih =>
      have hx : x ≠ sep := fun e => h (by simp [e])
      have hxs : sep ∉ xs := fun e => h (by simp [e])
      simp [Split, hx, ih hxs]

theorem append_sep_inj (a1 a2 b1 b2 : GoString) (sep : Byte) (h1 : sep ∉ a1) (h2 : sep ∉ a2)
    (h : a1 ++ sep :: b1 = a2 ++ sep :: b2) : a1 = a2 ∧ b1 = b2 := by
  induction a1 generalizing a2 with
  | nil =>
      cases a2 with
      | nil => simpa using h
      | cons y ys =>
          simp at h
          exact absurd h.1 (fun e => h2 (by simp [e]))
  | cons x xs ih =>
      cases a2 with
      | nil =>
          simp at h
          exact absurd h.1 (fun e => h1 (by simp [e]))
      | cons y ys =>
          simp at h
          have := ih ys (fun e => h1 (by simp [e])) (fun e => h2 (by simp [e])) h.2
          simp [h.1, this.1, this.2]

theorem digit_ofNat (u : Nat) (h : u < 10) : isDigit (Fin.ofNat (48 + u) : Byte) = true := by
  interval_cases u <;> decide

theorem formatBits_digits (fuel u : Nat) (acc : GoString) (hacc : ∀ b ∈ acc, isDigit b = true) :
    ∀ b ∈ formatBits fuel u acc, isDigit b = true := by
  induction fuel generalizing u acc with
  | zero => simpa [formatBits] using hacc
  | succ n ih =>
      unfold formatBits
      split
      · intro b hb
        rcases List.mem_cons.mp hb with rfl | hb
        · exact digit_ofNat u (by assumption)
        · exact hacc b hb
      · apply ih
        intro b hb
        rcases List.mem_cons.mp hb with rfl | hb
        · exact digit_ofNat _ (Nat.mod_lt _ (by decide))
        · exact hacc b hb

theorem FormatUint_digits (u : Nat) : ∀ b ∈ FormatUint u, isDigit b = true :=
  formatBits_digits _ _ _ (by simp)

theorem FormatInt_chars (i : Int) : ∀ b ∈ FormatInt i, isDigit b = true ∨ b = cMinus := by
  unfold FormatInt
  split
  · intro b hb
    rcases List.mem_cons.mp hb with rfl | hb
    · exact Or.inr rfl
    · exact Or.inl (FormatUint_digits _ b hb)
  · intro b hb
    exact Or.inl (FormatUint_digits _ b hb)

theorem FormatInt_no_semi (i : Int) : cSemi ∉ FormatInt i := by
  intro h
  rcases FormatInt_chars i _ h with h | h
  · exact absurd h (by decide)
  · exact absurd h (by decide)

theorem saltBytes_alnum (i : Fin saltBytes.length) : isAlnum (saltBytes.get i) = true := by
  revert i; decide

theorem saltLoop_length (n : Nat) (r : Rand) : (saltLoop n r).1.length = n := by
  induction n generalizing r with
  | zero => rfl
  | succ n ih => simp [saltLoop, ih]

theorem saltLoop_alnum (n : Nat) (r : Rand) : ∀ b ∈ (saltLoop n r).1, isAlnum b = true := by
  induction n generalizing r with
  | zero => simp [saltLoop]
  | succ n ih =>
      intro b hb
      simp only [saltLoop, List.mem_cons] at hb
      rcases hb with rfl | hb
      · exact saltBytes_alnum _
      · exact ih _ b hb

theorem saltLoop_no_semi (n : Nat) (r : Rand) : cSemi ∉ (saltLoop n r).1 := by
  intro h
  exact absurd (saltLoop_alnum n r _ h) (by decide)

theorem hexDigit_lowerHex (n : Nat) (h : n < 16) : isLowerHex (hexDigit n) = true := by
  interval_cases n <;> decide

theorem hexLower_length (b : List Byte) : (hexLower b).length = 2 * b.length := by
  induction b with
  | nil => rfl
  | cons x xs ih => simp [hexLower, List.flatMap_cons] at ih ⊢; omega

theorem hexLower_chars (b : List Byte) : ∀ c ∈ hexLower b, isLowerHex c = true := by
  intro c hc
  simp only [hexLower, List.mem_flatMap, List.mem_cons, List.mem_singleton, List.not_mem_nil,
    or_false] at hc
  obtain ⟨x, _, rfl | rfl⟩ := hc
  · exact hexDigit_lowerHex _ (by have := x.isLt; omega)
  · exact hexDigit_lowerHex _ (Nat.mod_lt _ (by decide))

theorem hexLower_no_semi (b : List Byte) : cSemi ∉ hexLower b := by
  intro h
  exact absurd (hexLower_chars b _ h) (by decide)

/-! ### The signature -/

/-- C1: for every login, apiKey, path and body, with the timestamp string
`FormatInt now` and the salt `(saltLoop 16 rng).1` drawn during the call,
`createSignature` returns `login;t;s;H`, where `H` is the lowercase
hexadecimal SHA-1 of `login;t;s;apiKey;path;B` and `B` the lowercase
hexadecimal SHA-1 of the body. -/
theorem createSignature_verification_law (c : Client) (uri body : GoString) (rng : Rand)
    (now : Int) :
    (c.createSignature uri body rng now).map Prod.fst =
      some (c.login ++ [cSemi] ++ FormatInt now ++ [cSemi] ++ (saltLoop 16 rng).1 ++ [cSemi]
        ++ hexLower (sha1.Sum (c.login ++ [cSemi] ++ FormatInt now ++ [cSemi]
            ++ (saltLoop 16 rng).1 ++ [cSemi] ++ c.apiKey ++ [cSemi] ++ uri ++ [cSemi]
            ++ hexLower (sha1.Sum body)))) := by
  rw [createSignature_eq]
  rfl

set_option maxRecDepth 1000000 in
/-- C2 (counterexample): with the login `a;b` the header splits on `;` into
five fields, not four. -/
theorem header_fields_counterexample :
    ((NewClient (fun _ => .error .notModelled) (lit "a;b") (lit "key")).createSignature
        (lit "/dns/example.com/addRR") (lit "type=TXT") (fun _ => 0) 1700000000).map
      (fun r => (Split r.1 cSemi).length) = some 5 := by
  decide

theorem signedHeader_shape (login apiKey uri body t s : GoString) :
    ∃ d, signedHeader login apiKey uri body t s
      = login ++ cSemi :: (t ++ cSemi :: (s ++ cSemi :: hexLower (sha1.Sum d))) :=
  ⟨login ++ [cSemi] ++ t ++ [cSemi] ++ s ++ [cSemi] ++ apiKey ++ [cSemi] ++ uri ++ [cSemi]
      ++ hexLower (sha1.Sum body), by simp [signedHeader]⟩

theorem saltLoop_mem (n : Nat) (r : Rand) : ∀ b ∈ (saltLoop n r).1, b ∈ saltBytes := by
  induction n generalizing r with
  | zero => simp [saltLoop]
  | succ n ih =>
      intro b hb
      simp only [saltLoop, List.mem_cons] at hb
      rcases hb with rfl | hb
      · exact List.get_mem _ _ _
      · exact ih _ b hb

/-- C2 (amended): for every login without `;`, every apiKey, path and body
and every outcome of the random source and the clock, the header splits on
`;` into exactly the four fields login, timestamp, salt and hash; the salt
has 16 characters, each from `saltBytes`, the alphabet `[a-zA-Z0-9]`, and the
hash is 40 lowercase hexadecimal characters. -/
theorem header_format (c : Client) (uri body : GoString) (rng : Rand) (now : Int)
    (hlogin : cSemi ∉ c.login) :
    ∃ hdr salt hash, (c.createSignature uri body rng now).map Prod.fst = some hdr
      ∧ Split hdr cSemi = [c.login, FormatInt now, salt, hash]
      ∧ salt.length = 16 ∧ (∀ b ∈ salt, b ∈ saltBytes ∧ isAlnum b = true)
      ∧ hash.length = 40 ∧ (∀ b ∈ hash, isLowerHex b = true) := by
  obtain ⟨d, hd⟩ := signedHeader_shape c.login c.apiKey uri body (FormatInt now)
    (saltLoop 16 rng).1
  refine ⟨_, (saltLoop 16 rng).1, hexLower (sha1.Sum d), by rw [createSignature_eq]; rfl, ?_,
    saltLoop_length _ _, ?_, ?_, hexLower_chars _⟩
  · rw [hd, Split_append_sep _ _ _ hlogin, Split_append_sep _ _ _ (FormatInt_no_semi now),
      Split_append_sep _ _ _ (saltLoop_no_semi _ _), Split_no_sep _ _ (hexLower_no_semi _)]
  · intro b hb
    exact ⟨saltLoop_mem _ _ b hb, saltLoop_alnum _ _ b hb⟩
  · rw [hexLower_length, sha1_Sum_length]

/-- Witness of `header_format` at the login `me`. -/
theorem header_format_witness :
    ∃ hdr salt hash,
      ((NewClient (fun _ => .error .notModelled) (lit "me") (lit "key")).createSignature
          (lit "/dns/example.com/addRR") (lit "type=TXT") (fun i => 7 * i) 1700000000).map
        Prod.fst = some hdr
      ∧ Split hdr cSemi = [lit "me", FormatInt 1700000000, salt, hash]
      ∧ salt.length = 16 ∧ (∀ b ∈ salt, b ∈ saltBytes ∧ isAlnum b = true)
      ∧ hash.length = 40 ∧ (∀ b ∈ hash, isLowerHex b = true) :=
  header_format (NewClient (fun _ => .error .notModelled) (lit "me") (lit "key"))
    (lit "/dns/example.com/addRR") (lit "type=TXT") (fun i => 7 * i) 1700000000 (by decide)

/-- C8: for identical login, apiKey, path and body, two computations return
the same header exactly when their timestamp strings and their salts are the
same: different (timestamp, salt) pairs give different headers, equal pairs
give equal headers. -/
theorem signature_distinct_iff (c : Client) (uri body : GoString) (rng1 rng2 : Rand)
    (now1 now2 : Int) :
    ((c.createSignature uri body rng1 now1).map Prod.fst
        = (c.createSignature uri body rng2 now2).map Prod.fst)
      ↔ (FormatInt now1, (saltLoop 16 rng1).1) = (FormatInt now2, (saltLoop 16 rng2).1) := by
  rw [createSignature_eq, createSignature_eq]
  simp only [Option.map_some', Option.some.injEq, Prod.mk.injEq]
  constructor
  · intro h
    obtain ⟨d1, hd1⟩ := signedHeader_shape c.login c.apiKey uri body (FormatInt now1)
      (saltLoop 16 rng1).1
    obtain ⟨d2, hd2⟩ := signedHeader_shape c.login c.apiKey uri body (FormatInt now2)
      (saltLoop 16 rng2).1
    rw [hd1, hd2] at h
    have h0 := List.append_cancel_left h
    simp only [List.cons.injEq, true_and] at h0
    have h1 := append_sep_inj _ _ _ _ _ (FormatInt_no_semi now1) (FormatInt_no_semi now2) h0
    have h2 := append_sep_inj _ _ _ _ _ (saltLoop_no_semi _ _) (saltLoop_no_semi _ _) h1.2
    exact ⟨h1.1, h2.1⟩
  · rintro ⟨h1, h2⟩
    rw [h1, h2]

theorem isEmpty_string (s : GoString) : isEmptyValue (.string s) = decide (s = []) := by
  cases s <;> simp [isEmptyValue]

theorem isEmpty_int (i : Int) : isEmptyValue (.int i) = decide (i = 0) := by
  unfold isEmptyValue
  by_cases h : i = 0 <;> simp [h]

theorem reflectValue_record (r : Record) : reflectValue [] r.fields = declaredParams r := by
  have t1 : (lit "name,omitempty" = lit "-") = False := by decide
  have t2 : (lit "type,omitempty" = lit "-") = False := by decide
  have t3 : (lit "data,omitempty" = lit "-") = False := by decide
  have t4 : (lit "ttl,omitempty" = lit "-") = False := by decide
  have s1 : Split (lit "name,omitempty") 44 = [lit "name", lit "omitempty"] := by decide
  have s2 : Split (lit "type,omitempty") 44 = [lit "type", lit "omitempty"] := by decide
  have s3 : Split (lit "data,omitempty") 44 = [lit "data", lit "omitempty"] := by decide
  have s4 : Split (lit "ttl,omitempty") 44 = [lit "ttl", lit "omitempty"] := by decide
  have k1 : (lit "name" = []) = False := by decide
  have k2 : (lit "type" = []) = False := by decide
  have k3 : (lit "data" = []) = False := by decide
  have k4 : (lit "ttl" = []) = False := by decide
  have e1 : (lit "name" == lit "type") = false := by decide
  have e2 : (lit "name" == lit "data") = false := by decide
  have e3 : (lit "name" == lit "ttl") = false := by decide
  have e4 : (lit "type" == lit "data") = false := by decide
  have e5 : (lit "type" == lit "ttl") = false := by decide
  have e6 : (lit "data" == lit "ttl") = false := by decide
  simp only [Record.fields, reflectValue, t1, t2, t3, t4, s1, s2, s3, s4, k1, k2, k3, k4,
    if_false, List.headD_cons, List.drop_one, List.tail_cons, List.contains_cons,
    List.contains_nil, beq_self_eq_true, Bool.or_false, Bool.true_and, isEmpty_string,
    isEmpty_int, valueString, declaredParams, decide_eq_true_eq]
  by_cases h1 : r.Name = [] <;> by_cases h2 : r.Type_ = [] <;> by_cases h3 : r.Data = []
    <;> by_cases h4 : r.TTL = 0
    <;> simp [h1, h2, h3, h4, Values.Add, e1, e2, e3, e4, e5, e6]

theorem param_length_pos (pre k v : GoString) : decide ((pre ++ k ++ [cEq] ++ v).length > 0) = true := by
  simp

theorem Encode_record (r : Record) :
    Values.Encode (declaredParams r) = joinParams (sortedParams r) := by
  have e1 : (lit "name" == lit "type") = false := by decide
  have e2 : (lit "name" == lit "data") = false := by decide
  have e3 : (lit "name" == lit "ttl") = false := by decide
  have e4 : (lit "type" == lit "data") = false := by decide
  have e5 : (lit "type" == lit "ttl") = false := by decide
  have e6 : (lit "data" == lit "ttl") = false := by decide
  have e1' : (lit "type" == lit "name") = false := by decide
  have e2' : (lit "data" == lit "name") = false := by decide
  have e3' : (lit "ttl" == lit "name") = false := by decide
  have e4' : (lit "data" == lit "type") = false := by decide
  have e5' : (lit "ttl" == lit "type") = false := by decide
  have e6' : (lit "ttl" == lit "data") = false := by decide
  have l1 : strLess (lit "name") (lit "type") = true := by decide
  have l2 : strLess (lit "name") (lit "data") = false := by decide
  have l3 : strLess (lit "name") (lit "ttl") = true := by decide
  have l4 : strLess (lit "type") (lit "data") = false := by decide
  have l5 : strLess (lit "type") (lit "ttl") = false := by decide
  have l6 : strLess (lit "data") (lit "ttl") = true := by decide
  have l1' : strLess (lit "type") (lit "name") = false := by decide
  have l2' : strLess (lit "data") (lit "name") = true := by decide
  have l3' : strLess (lit "ttl") (lit "name") = false := by decide
  have l4' : strLess (lit "data") (lit "type") = true := by decide
  have l5' : strLess (lit "ttl") (lit "type") = true := by decide
  have l6' : strLess (lit "ttl") (lit "data") = false := by decide
  have q1 : QueryEscape (lit "name") = lit "name" := by decide
  have q2 : QueryEscape (lit "type") = lit "type" := by decide
  have q3 : QueryEscape (lit "data") = lit "data" := by decide
  have q4 : QueryEscape (lit "ttl") = lit "ttl" := by decide
  by_cases h1 : r.Name = [] <;> by_cases h2 : r.Type_ = [] <;> by_cases h3 : r.Data = []
    <;> by_cases h4 : r.TTL = 0
    <;> simp [h1, h2, h3, h4, declaredParams, sortedParams, Values.Encode, sortStrings, insertKey,
      encodeKeys, encodeValues, List.lookup, joinParams, paramText,
      e1, e2, e3, e4, e5, e6, e1', e2', e3', e4', e5', e6',
      l1, l2, l3, l4, l5, l6, l1', l2', l3', l4', l5', l6', q1, q2, q3, q4]

/-! ### Unfolding `unescape` -/

theorem unescape_plus (rest : GoString) (mode : Encoding) :
    unescape (cPlus :: rest) mode
      = consOk (if mode = .encodeQueryComponent then cSpace else cPlus) (unescape rest mode) := by
  have h : (cPlus = cPercent) = False := by decide
  rcases rest with _ | ⟨a, _ | ⟨b, r⟩⟩ <;> simp [unescape, h]

theorem unescape_plain (c : Byte) (rest : GoString) (mode : Encoding) (h1 : c ≠ cPercent)
    (h2 : c ≠ cPlus) :
    unescape (c :: rest) mode
      = if (mode = .encodeHost || mode = .encodeZone) && decide (c.val < 128)
            && shouldEscape c .encodeHost then
          .error (.msg (lit "invalid character in host name"))
        else consOk c (unescape rest mode) := by
  rcases rest with _ | ⟨a, _ | ⟨b, r⟩⟩ <;> simp [unescape, h1, h2]

theorem unescape_percent (a b : Byte) (rest : GoString) (mode : Encoding)
    (ha : ishex a = true) (hb : ishex b = true) (hm : mode ≠ .encodeHost)
    (hz : mode ≠ .encodeZone) :
    unescape (cPercent :: a :: b :: rest) mode
      = consOk (Fin.ofNat (unhex a <<< 4 ||| unhex b)) (unescape rest mode) := by
  simp [unescape, ha, hb, hm, hz]

/-! ### Escaping of query components -/

theorem upperhex_ishex (c : Byte) :
    ishex (upperhex.getD (c.val >>> 4) 0) = true
      ∧ ishex (upperhex.getD (c.val &&& 15) 0) = true := by
  revert c; decide!

theorem upperhex_unhex (c : Byte) :
    (Fin.ofNat (unhex (upperhex.getD (c.val >>> 4) 0) <<< 4
      ||| unhex (upperhex.getD (c.val &&& 15) 0)) : Byte) = c := by
  revert c; decide!

theorem unreserved_query (c : Byte) (h : shouldEscape c .encodeQueryComponent = false) :
    c ≠ cPercent ∧ c ≠ cPlus ∧ c ≠ cAmp ∧ c ≠ cEq ∧ c ≠ cSemi ∧ c ≠ cSpace := by
  revert c; decide!

theorem escapeByte_query_all (c : Byte) :
    (escapeByte .encodeQueryComponent c).all (fun x => x != cAmp && x != cEq && x != cSemi)
      = true := by
  revert c; decide!

theorem escapeByte_query_plain (c : Byte) :
    ∀ x ∈ escapeByte .encodeQueryComponent c, x ≠ cAmp ∧ x ≠ cEq ∧ x ≠ cSemi := by
  intro x hx
  have := List.all_eq_true.mp (escapeByte_query_all c) x hx
  simpa [and_assoc] using this

theorem escapeByte_ne_nil (mode : Encoding) (c : Byte) : escapeByte mode c ≠ [] := by
  unfold escapeByte
  split <;> [skip; split] <;> simp

theorem unescape_escapeByte_query (c : Byte) (rest : GoString) :
    unescape (escapeByte .encodeQueryComponent c ++ rest) .encodeQueryComponent
      = consOk c (unescape rest .encodeQueryComponent) := by
  unfold escapeByte
  by_cases hs : c = cSpace
  · subst hs
    simp [unescape_plus]
  · by_cases he : shouldEscape c .encodeQueryComponent = true
    · simp only [hs, he, decide_False, Bool.false_and, if_false, if_true, List.cons_append,
        List.nil_append, Bool.false_eq_true]
      rw [unescape_percent _ _ _ _ (upperhex_ishex c).1 (upperhex_ishex c).2 (by decide)
        (by decide), upperhex_unhex]
    · have he' : shouldEscape c .encodeQueryComponent = false := by simpa using he
      obtain ⟨p1, p2, _⟩ := unreserved_query c he'
      simp only [hs, he', decide_False, Bool.false_and, if_false, List.cons_append,
        List.nil_append, Bool.false_eq_true]
      rw [unescape_plain _ _ _ p1 p2]
      simp

theorem unescape_escape_query (v : GoString) :
    unescape (escape v .encodeQueryComponent) .encodeQueryComponent = .ok v := by
  induction v with
  | nil => rfl
  | cons c rest ih =>
      have : escape (c :: rest) .encodeQueryComponent
          = escapeByte .encodeQueryComponent c ++ escape rest .encodeQueryComponent := by
        simp [escape, List.flatMap_cons]
      rw [this, unescape_escapeByte_query, ih]
      rfl

theorem escape_query_plain (v : GoString) :
    ∀ x ∈ escape v .encodeQueryComponent, x ≠ cAmp ∧ x ≠ cEq ∧ x ≠ cSemi := by
  intro x hx
  simp only [escape, List.mem_flatMap] at hx
  obtain ⟨c, _, hc⟩ := hx
  exact escapeByte_query_plain c x hc

theorem escape_eq_nil (v : GoString) (mode : Encoding) : escape v mode = [] ↔ v = [] := by
  cases v with
  | nil => simp [escape]
  | cons c rest => simp [escape, List.flatMap_cons, escapeByte_ne_nil]

theorem escape_id (v : GoString) (mode : Encoding)
    (h : ∀ b ∈ v, escapeByte mode b = [b]) : escape v mode = v := by
  induction v with
  | nil => rfl
  | cons c rest ih =>
      have := ih (fun b hb => h b (by simp [hb]))
      simp only [escape, List.flatMap_cons] at this ⊢
      rw [this, h c (by simp)]
      rfl

/-! ### Parameters of the encoded body -/

theorem Cut_append_sep (a b : GoString) (sep : Byte) (h : sep ∉ a) :
    Cut (a ++ sep :: b) sep = (a, b, true) := by
  induction a with
  | nil => simp [Cut]
  | cons x xs ih =>
      have hx : x ≠ sep := fun e => h (by simp [e])
      have hxs : sep ∉ xs := fun e => h (by simp [e])
      simp [Cut, hx, ih hxs]

theorem recordKeys_plain : ∀ k ∈ recordKeys,
    cAmp ∉ k ∧ cEq ∉ k ∧ cSemi ∉ k ∧ k ≠ [] ∧ unescape k .encodeQueryComponent = .ok k := by
  intro k hk
  simp only [recordKeys, List.mem_cons, List.mem_singleton, List.not_mem_nil, or_false] at hk
  rcases hk with rfl | rfl | rfl | rfl <;> exact ⟨by decide, by decide, by decide, by decide, by rfl⟩

theorem sortedParams_keys (r : Record) : ∀ kv ∈ sortedParams r, kv.1 ∈ recordKeys := by
  intro kv hkv
  simp only [sortedParams, List.mem_append] at hkv
  rcases hkv with ((h | h) | h) | h <;> split at h <;> simp at h <;> subst h <;> simp [recordKeys]

theorem formatBits_acc_ne_nil (fuel u : Nat) (acc : GoString) (h : acc ≠ []) :
    formatBits fuel u acc ≠ [] := by
  induction fuel generalizing u acc with
  | zero => simpa [formatBits] using h
  | succ n ih =>
      unfold formatBits
      split
      · simp
      · exact ih _ _ (by simp)

theorem FormatUint_ne_nil (u : Nat) : FormatUint u ≠ [] := by
  unfold FormatUint formatBits
  split
  · simp
  · exact formatBits_acc_ne_nil _ _ _ (by simp)

theorem FormatInt_ne_nil (i : Int) : FormatInt i ≠ [] := by
  unfold FormatInt
  split
  · simp
  · exact FormatUint_ne_nil _

theorem sortedParams_values (r : Record) : ∀ kv ∈ sortedParams r, kv.2 ≠ [] := by
  intro kv hkv
  simp only [sortedParams, List.mem_append] at hkv
  rcases hkv with ((h | h) | h) | h <;> split at h <;> simp at h <;> subst h
  · assumption
  · assumption
  · exact FormatInt_ne_nil _
  · assumption

theorem sortedParams_keys_pairwise (r : Record) :
    (sortedParams r).Pairwise (fun a b => a.1 ≠ b.1) := by
  have e1 : lit "data" ≠ lit "name" := by decide
  have e2 : lit "data" ≠ lit "ttl" := by decide
  have e3 : lit "data" ≠ lit "type" := by decide
  have e4 : lit "name" ≠ lit "ttl" := by decide
  have e5 : lit "name" ≠ lit "type" := by decide
  have e6 : lit "ttl" ≠ lit "type" := by decide
  by_cases h1 : r.Name = [] <;> by_cases h2 : r.Type_ = [] <;> by_cases h3 : r.Data = []
    <;> by_cases h4 : r.TTL = 0
    <;> simp [sortedParams, h1, h2, h3, h4, e1, e2, e3, e4, e5, e6]

theorem paramText_no_amp (kv : GoString × GoString) (hk : kv.1 ∈ recordKeys) :
    cAmp ∉ paramText kv := by
  obtain ⟨h1, _, _, _, _⟩ := recordKeys_plain _ hk
  intro h
  simp only [paramText, List.mem_append, List.mem_cons] at h
  rcases h with h | h | h
  · exact h1 h
  · exact absurd h (by decide)
  · exact (escape_query_plain _ _ h).1 rfl

theorem paramText_no_semi (kv : GoString × GoString) (hk : kv.1 ∈ recordKeys) :
    cSemi ∉ paramText kv := by
  obtain ⟨_, _, h1, _, _⟩ := recordKeys_plain _ hk
  intro h
  simp only [paramText, List.mem_append, List.mem_cons] at h
  rcases h with h | h | h
  · exact h1 h
  · exact absurd h (by decide)
  · exact (escape_query_plain _ _ h).2.2 rfl

theorem Split_joinParams (ps : List (GoString × GoString)) (hne : ps ≠ [])
    (hk : ∀ kv ∈ ps, kv.1 ∈ recordKeys) :
    Split (joinParams ps) cAmp = ps.map paramText := by
  induction ps with
  | nil => exact absurd rfl hne
  | cons kv rest ih =>
      cases rest with
      | nil =>
          simp only [joinParams, List.map_cons, List.map_nil]
          exact Split_no_sep _ _ (paramText_no_amp kv (hk kv (by simp)))
      | cons kv2 rest2 =>
          simp only [joinParams, List.map_cons]
          rw [Split_append_sep _ _ _ (paramText_no_amp kv (hk kv (by simp)))]
          have := ih (by simp) (fun x hx => hk x (by simp [hx]))
          simp only [List.map_cons] at this
          rw [this]

theorem joinParams_eq_nil (ps : List (GoString × GoString)) : joinParams ps = [] ↔ ps = [] := by
  cases ps with
  | nil => simp [joinParams]
  | cons kv rest => cases rest <;> simp [joinParams, paramText]

theorem rawParams_joinParams (ps : List (GoString × GoString))
    (hk : ∀ kv ∈ ps, kv.1 ∈ recordKeys) :
    rawParams (joinParams ps) = ps.map (fun kv => (kv.1, QueryEscape kv.2)) := by
  unfold rawParams
  by_cases hne : ps = []
  · simp [hne, joinParams]
  · rw [if_neg (by rwa [joinParams_eq_nil]), Split_joinParams ps hne hk, List.map_map]
    apply List.map_congr_left
    intro kv hkv
    obtain ⟨_, h2, _, _, _⟩ := recordKeys_plain _ (hk kv hkv)
    simp [paramText, Cut_append_sep _ _ _ h2]

theorem parseQueryPieces_params (ps : List (GoString × GoString)) (m : Values)
    (hk : ∀ kv ∈ ps, kv.1 ∈ recordKeys)
    (hd : ps.Pairwise (fun a b => a.1 ≠ b.1))
    (hm : ∀ kv ∈ ps, ∀ e ∈ m, e.1 ≠ kv.1) :
    parseQueryPieces (ps.map paramText) m = .ok (m ++ ps.map (fun kv => (kv.1, [kv.2]))) := by
  induction ps generalizing m with
  | nil => simp [parseQueryPieces]
  | cons kv rest ih =>
      obtain ⟨_, h2, _, h4, h5⟩ := recordKeys_plain _ (hk kv (by simp))
      have hs : (paramText kv).contains cSemi = false := by
        simpa using paramText_no_semi kv (hk kv (by simp))
      have hne : paramText kv ≠ [] := by simp [paramText]
      have hcut : Cut (paramText kv) cEq = (kv.1, QueryEscape kv.2, true) :=
        Cut_append_sep _ _ _ h2
      have hany : m.any (fun e => e.1 == kv.1) = false := by
        simp only [List.any_eq_false, beq_iff_eq]
        intro e he
        exact hm kv (by simp) e he
      rw [List.map_cons, parseQueryPieces]
      simp only [hs, hne, hcut, h5, QueryEscape, unescape_escape_query, hany, if_false,
        Bool.false_eq_true]
      rw [ih]
      · simp
      · exact fun x hx => hk x (by simp [hx])
      · exact (List.pairwise_cons.mp hd).2
      · intro x hx e he
        simp only [List.mem_append, List.mem_singleton] at he
        rcases he with he | rfl
        · exact hm x (by simp [hx]) e he
        · exact (List.pairwise_cons.mp hd).1 x hx

theorem encodedBody_eq (r : Record) : encodedBody r = .ok (joinParams (sortedParams r)) := by
  simp only [encodedBody, querystringValues, reflectValue_record, Encode_record]

/-- C3 (counterexample): the record `{Name:"", Type:"TXT", Data:"value", TTL:0}`
is encoded as `data=value&type=TXT`, not as `type=TXT&data=value`. -/
theorem field_order_counterexample :
    encodedBody ⟨[], lit "TXT", lit "value", 0⟩ = .ok (lit "data=value&type=TXT")
      ∧ encodedBody ⟨[], lit "TXT", lit "value", 0⟩ ≠ .ok (lit "type=TXT&data=value") := by
  constructor
  · rfl
  · rw [encodedBody_eq]
    intro h
    exact absurd (Except.ok.inj h) (by decide)

/-- C3 (amended): for every record the encoded body lists the parameters that
are not omitted sorted by key, i.e. in the order data, name, ttl, type, joined
by `&`; `{Name:"", Type:"TXT", Data:"value", TTL:0}` encodes to
`data=value&type=TXT` and `{Name:"_acme-challenge", Type:"TXT", Data:"tok123"}`
to `data=tok123&name=_acme-challenge&type=TXT`. -/
theorem encodedBody_sorted_by_key :
    (∀ r : Record, encodedBody r = .ok (joinParams (sortedParams r)))
      ∧ encodedBody ⟨[], lit "TXT", lit "value", 0⟩ = .ok (lit "data=value&type=TXT")
      ∧ encodedBody ⟨lit "_acme-challenge", lit "TXT", lit "tok123", 0⟩
          = .ok (lit "data=tok123&name=_acme-challenge&type=TXT") :=
  ⟨encodedBody_eq, by rfl, by rfl⟩

theorem FormatInt_unreserved (i : Int) :
    ∀ b ∈ FormatInt i, escapeByte .encodeQueryComponent b = [b] := by
  intro b hb
  have key : ∀ c : Byte, (isDigit c = true ∨ c = cMinus) →
      escapeByte .encodeQueryComponent c = [c] := by decide!
  exact key b (FormatInt_chars i b hb)

theorem mem_keys_sortedParams (r : Record) :
    (lit "name" ∈ (sortedParams r).map Prod.fst ↔ r.Name ≠ [])
      ∧ (lit "type" ∈ (sortedParams r).map Prod.fst ↔ r.Type_ ≠ [])
      ∧ (lit "data" ∈ (sortedParams r).map Prod.fst ↔ r.Data ≠ [])
      ∧ (lit "ttl" ∈ (sortedParams r).map Prod.fst ↔ r.TTL ≠ 0) := by
  have e1 : lit "data" ≠ lit "name" := by decide
  have e2 : lit "data" ≠ lit "ttl" := by decide
  have e3 : lit "data" ≠ lit "type" := by decide
  have e4 : lit "name" ≠ lit "ttl" := by decide
  have e5 : lit "name" ≠ lit "type" := by decide
  have e6 : lit "ttl" ≠ lit "type" := by decide
  by_cases h1 : r.Name = [] <;> by_cases h2 : r.Type_ = [] <;> by_cases h3 : r.Data = []
    <;> by_cases h4 : r.TTL = 0
    <;> simp [sortedParams, h1, h2, h3, h4, e1, e2, e3, e4, e5, e6, e1.symm, e2.symm, e3.symm,
      e4.symm, e5.symm, e6.symm]

/-- C4: for every record, the encoded body has a parameter `name`, `type` or
`data` exactly when the field is not empty and a parameter `ttl` exactly when
`TTL` is not 0, its value then being `TTL` in decimal; no parameter has an
empty value, and the all-zero record encodes to the empty body. -/
theorem encodedBody_omits_zero_fields (r : Record) :
    ∃ body, encodedBody r = .ok body
      ∧ (lit "name" ∈ (rawParams body).map Prod.fst ↔ r.Name ≠ [])
      ∧ (lit "type" ∈ (rawParams body).map Prod.fst ↔ r.Type_ ≠ [])
      ∧ (lit "data" ∈ (rawParams body).map Prod.fst ↔ r.Data ≠ [])
      ∧ (lit "ttl" ∈ (rawParams body).map Prod.fst ↔ r.TTL ≠ 0)
      ∧ (∀ v, (lit "ttl", v) ∈ rawParams body → v = FormatInt r.TTL)
      ∧ (∀ kv ∈ rawParams body, kv.2 ≠ [])
      ∧ (r.Name = [] ∧ r.Type_ = [] ∧ r.Data = [] ∧ r.TTL = 0 → body = []) := by
  refine ⟨_, encodedBody_eq r, ?_⟩
  have hraw := rawParams_joinParams (sortedParams r) (sortedParams_keys r)
  have hkeys : (rawParams (joinParams (sortedParams r))).map Prod.fst
      = (sortedParams r).map Prod.fst := by
    rw [hraw, List.map_map]
    rfl
  obtain ⟨k1, k2, k3, k4⟩ := mem_keys_sortedParams r
  rw [hkeys]
  refine ⟨k1, k2, k3, k4, ?_, ?_, ?_⟩
  · intro v hv
    rw [hraw] at hv
    obtain ⟨kv, hkv, heq⟩ := List.mem_map.mp hv
    have e2 : lit "data" ≠ lit "ttl" := by decide
    have e4 : lit "name" ≠ lit "ttl" := by decide
    have e6 : lit "type" ≠ lit "ttl" := by decide
    simp only [sortedParams, List.mem_append] at hkv
    simp only [Prod.mk.injEq] at heq
    rcases hkv with ((h | h) | h) | h <;> split at h <;> simp at h <;> subst h
    · exact absurd heq.1 e2
    · exact absurd heq.1 e4
    · rw [← heq.2]
      exact escape_id _ _ (FormatInt_unreserved _)
    · exact absurd heq.1 e6
  · intro kv hkv
    rw [hraw] at hkv
    obtain ⟨x, hx, rfl⟩ := List.mem_map.mp hkv
    simp only [QueryEscape, ne_eq, escape_eq_nil]
    exact sortedParams_values r x hx
  · rintro ⟨h1, h2, h3, h4⟩
    simp [sortedParams, h1, h2, h3, h4, joinParams]

/-- C9: for every record, decoding the encoded body as a form-urlencoded
query yields exactly one value for each field that is not zero and no other
key, the values being the original `Name`, `Type`, `Data` and the decimal
`TTL`. -/
theorem encodedBody_decodes (r : Record) :
    ∃ body, encodedBody r = .ok body
      ∧ ParseQuery body = .ok ((sortedParams r).map (fun kv => (kv.1, [kv.2]))) := by
  refine ⟨_, encodedBody_eq r, ?_⟩
  unfold ParseQuery
  by_cases hne : sortedParams r = []
  · rw [hne]
    rfl
  · rw [Split_joinParams _ hne (sortedParams_keys r),
      parseQueryPieces_params _ _ (sortedParams_keys r) (sortedParams_keys_pairwise r)
        (by simp)]
    simp

/-! ### `path.Clean` on paths made of real elements -/

theorem startsWith_cons_singleton (c : Byte) (rest : GoString) (d : Byte) :
    startsWith (c :: rest) [d] = (c == d) := by
  simp [startsWith]

theorem startsWith_nil_singleton (d : Byte) : startsWith [] [d] = false := rfl

theorem takeWhile_seg (seg t : GoString) (hs : cSlash ∉ seg)
    (ht : t = [] ∨ ∃ t1, t = cSlash :: t1) :
    (seg ++ t).takeWhile (fun b => b != cSlash) = seg
      ∧ (seg ++ t).dropWhile (fun b => b != cSlash) = t := by
  induction seg with
  | nil =>
      rcases ht with rfl | ⟨t1, rfl⟩
      · simp
      · simp
  | cons x xs ih =>
      have hx : x ≠ cSlash := fun e => hs (by simp [e])
      have := ih (fun e => hs (by simp [e]))
      simp [hx, this.1, this.2]

theorem cleanLoop_nil (rooted : Bool) (fuel : Nat) (out : GoString) (dd : Nat) :
    cleanLoop rooted fuel [] out dd = out := by
  cases fuel <;> rfl

theorem cleanLoop_slash (rooted : Bool) (fuel : Nat) (t out : GoString) (dd : Nat) :
    cleanLoop rooted (fuel + 1) (cSlash :: t) out dd = cleanLoop rooted fuel t out dd := by
  simp [cleanLoop]

theorem cleanLoop_real (fuel : Nat) (seg t out : GoString) (dd : Nat)
    (hseg : isRealSegment seg = true) (ht : t = [] ∨ ∃ t1, t = cSlash :: t1) :
    cleanLoop false (fuel + 1) (seg ++ t) out dd
      = cleanLoop false fuel t
          (seg.reverse ++ (if out.length != 0 then cSlash :: out else out)) dd := by
  simp only [isRealSegment, Bool.and_eq_true, bne_iff_ne, ne_eq, Bool.not_eq_true',
    List.contains_eq_any_beq, List.any_eq_false, beq_iff_eq] at hseg
  obtain ⟨⟨⟨hne, hsl⟩, hdot⟩, hdd⟩ := hseg
  have hsl' : cSlash ∉ seg := fun h => hsl _ h rfl
  obtain ⟨h1, h2⟩ := takeWhile_seg seg t hsl' ht
  cases seg with
  | nil => exact absurd rfl hne
  | cons c s1 =>
      have hc : c ≠ cSlash := fun e => hsl' (by simp [e])
      rw [List.cons_append] at h1 h2 ⊢
      rw [cleanLoop]
      rw [if_neg hc]
      have hA : (c = cDot && (s1 ++ t = [] || startsWith (s1 ++ t) [cSlash])) = false := by
        by_cases hcd : c = cDot
        · subst hcd
          cases s1 with
          | nil => exact absurd rfl hdot
          | cons x xs =>
              have hx : x ≠ cSlash := fun e => hsl' (by simp [e])
              simp [startsWith, hx]
        · simp [hcd]
      have hB : (c = cDot && startsWith (s1 ++ t) [cDot]
          && ((s1 ++ t).drop 1 = [] || startsWith ((s1 ++ t).drop 1) [cSlash])) = false := by
        by_cases hcd : c = cDot
        · subst hcd
          cases s1 with
          | nil => exact absurd rfl hdot
          | cons x xs =>
              by_cases hxd : x = cDot
              · subst hxd
                cases xs with
                | nil => exact absurd rfl hdd
                | cons y ys =>
                    have hy : y ≠ cSlash := fun e => hsl' (by simp [e])
                    simp [startsWith, hy]
              · simp [startsWith, hxd]
        · simp [hcd]
      rw [hA, hB]
      simp only [Bool.false_eq_true, if_false, h1, h2, Bool.false_and, Bool.not_false,
        Bool.true_and, Bool.false_or]

theorem isRealSegment_ne_nil (s : GoString) (h : isRealSegment s = true) : s ≠ [] := by
  intro e
  subst e
  simp [isRealSegment] at h

theorem isRealSegment_no_slash (s : GoString) (h : isRealSegment s = true) : cSlash ∉ s := by
  intro hm
  simp only [isRealSegment, Bool.and_eq_true, Bool.not_eq_true', List.contains_eq_any_beq,
    List.any_eq_false, beq_iff_eq] at h
  exact h.1.1.2 _ hm rfl

theorem cleanLoop_joinSlash (segs : List GoString) (hne : segs ≠ [])
    (hreal : ∀ s ∈ segs, isRealSegment s = true) (fuel : Nat) (out : GoString) (dd : Nat)
    (hfuel : (joinSlash segs).length ≤ fuel) :
    cleanLoop false fuel (joinSlash segs) out dd
      = (joinSlash segs).reverse ++ (if out.length != 0 then cSlash :: out else out) := by
  induction segs generalizing fuel out with
  | nil => exact absurd rfl hne
  | cons s rest ih =>
      have hs := hreal s (by simp)
      have hsne := isRealSegment_ne_nil s hs
      have hslen : 0 < s.length := List.length_pos.mpr hsne
      cases rest with
      | nil =>
          simp only [joinSlash] at hfuel ⊢
          obtain ⟨f, rfl⟩ : ∃ f, fuel = f + 1 := ⟨fuel - 1, by omega⟩
          have := cleanLoop_real f s [] out dd hs (Or.inl rfl)
          rw [List.append_nil] at this
          rw [this, cleanLoop_nil]
      | cons s2 rest2 =>
          simp only [joinSlash, List.length_append, List.length_cons] at hfuel ⊢
          obtain ⟨g, rfl⟩ : ∃ g, fuel = g + 1 + 1 := ⟨fuel - 2, by omega⟩
          rw [cleanLoop_real (g + 1) s _ out dd hs (Or.inr ⟨_, rfl⟩), cleanLoop_slash,
            ih (by simp) (fun x hx => hreal x (by simp [hx])) g _ (by omega)]
          have : ((s.reverse ++ if out.length != 0 then cSlash :: out else out).length != 0)
              = true := by
            simp only [List.length_append, List.length_reverse, bne_iff_ne, ne_eq]
            omega
          rw [if_pos this]
          simp [List.reverse_append]

theorem Clean_joinSlash (segs : List GoString) (hne : segs ≠ [])
    (hreal : ∀ s ∈ segs, isRealSegment s = true) : Clean (joinSlash segs) = joinSlash segs := by
  have hfirst : ∃ c rest, joinSlash segs = c :: rest ∧ c ≠ cSlash := by
    cases segs with
    | nil => exact absurd rfl hne
    | cons s rest =>
        have hs := hreal s (by simp)
        have hsl := isRealSegment_no_slash s hs
        cases s with
        | nil => exact absurd rfl (isRealSegment_ne_nil _ hs)
        | cons c s1 =>
            have hc : c ≠ cSlash := fun e => hsl (by simp [e])
            cases rest with
            | nil => exact ⟨c, s1, rfl, hc⟩
            | cons s2 r2 => exact ⟨c, _, rfl, hc⟩
  obtain ⟨c, rest, hj, hc⟩ := hfirst
  have hcl := cleanLoop_joinSlash segs hne hreal ((joinSlash segs).length + 1) [] 0 (by omega)
  rw [hj] at hcl ⊢
  have hb : (c == cSlash) = false := by simp [hc]
  simp only [List.length_cons] at hcl
  simp only [Clean, hb, Bool.false_eq_true, if_false, List.length_cons, hcl]
  simp

theorem joinSlash_Split (p : GoString) : joinSlash (Split p cSlash) = p := by
  induction p with
  | nil => rfl
  | cons c rest ih =>
      by_cases hc : c = cSlash
      · subst hc
        have hne : Split rest cSlash ≠ [] := by
          cases rest with
          | nil => simp [Split]
          | cons x xs =>
              simp only [Split]
              split
              · simp
              · split <;> simp
        cases hsp : Split rest cSlash with
        | nil => exact absurd hsp hne
        | cons s ss =>
            rw [hsp] at ih
            simp only [Split, if_true, hsp, joinSlash, List.nil_append]
            rw [ih]
      · simp only [Split, hc, if_false]
        cases hsp : Split rest cSlash with
        | nil =>
            rw [hsp] at ih
            simp only [joinSlash] at ih ⊢
            rw [← ih]
        | cons s ss =>
            rw [hsp] at ih
            cases ss with
            | nil =>
                simp only [joinSlash] at ih ⊢
                rw [ih]
            | cons s2 ss2 =>
                simp only [joinSlash, List.cons_append] at ih ⊢
                rw [ih]

theorem Split_ne_nil (p : GoString) (sep : Byte) : Split p sep ≠ [] := by
  cases p with
  | nil => simp [Split]
  | cons x xs =>
      simp only [Split]
      split
      · simp
      · split <;> simp

theorem Clean_fixed (p : GoString) (hreal : ∀ s ∈ Split p cSlash, isRealSegment s = true) :
    Clean p = p := by
  have := Clean_joinSlash (Split p cSlash) (Split_ne_nil p cSlash) hreal
  rwa [joinSlash_Split] at this

theorem joinBuf_three (a d b : GoString) (ha : a ≠ []) :
    joinBuf [a, d, b] [] = a ++ cSlash :: (d ++ cSlash :: b) := by
  have h1 : (a.length > 0) := List.length_pos.mpr ha
  simp [joinBuf, ha, h1]

theorem Join_three (a d b : GoString) (ha : a ≠ []) :
    Join [a, d, b] = Clean (a ++ cSlash :: (d ++ cSlash :: b)) := by
  have h1 : (a.length > 0) := List.length_pos.mpr ha
  have : ¬ (a.length + (d.length + b.length) = 0) := by omega
  simp only [Join, List.map_cons, List.map_nil, List.sum_cons, List.sum_nil, Nat.add_zero, this,
    if_false, joinBuf_three a d b ha]

theorem Join_empty_left (p : GoString) (hp : p ≠ []) : Join [[], p] = Clean p := by
  have h1 : (p.length > 0) := List.length_pos.mpr hp
  have : ¬ (p.length = 0) := by omega
  simp [Join, joinBuf, hp, this]

/-! ### Escaping of paths -/

theorem shouldEscape_path_cases (c : Byte) :
    ((!shouldEscape c .encodePath && c != cPercent && c != cQuestion && c != cHash)
      || (shouldEscape c .encodePath && c != cSlash && c != cDot)) = true := by
  revert c; decide!

theorem escapeByte_path_cases (c : Byte) :
    (escapeByte .encodePath c = [c] ∧ c ≠ cPercent ∧ c ≠ cQuestion ∧ c ≠ cHash)
      ∨ (escapeByte .encodePath c
            = [cPercent, upperhex.getD (c.val >>> 4) 0, upperhex.getD (c.val &&& 15) 0]
          ∧ c ≠ cSlash ∧ c ≠ cDot) := by
  have h := shouldEscape_path_cases c
  have hm : (Encoding.encodePath = Encoding.encodeQueryComponent) = False := by decide
  simp only [Bool.or_eq_true, Bool.and_eq_true, Bool.not_eq_true', bne_iff_ne, ne_eq] at h
  rcases h with ⟨⟨⟨h1, h2⟩, h3⟩, h4⟩ | ⟨⟨h1, h2⟩, h3⟩
  · left
    refine ⟨?_, h2, h3, h4⟩
    simp only [escapeByte, hm, decide_False, Bool.and_false, h1, Bool.false_eq_true, if_false]
  · right
    refine ⟨?_, h2, h3⟩
    simp only [escapeByte, hm, decide_False, Bool.and_false, h1, Bool.false_eq_true, if_false,
      if_true]

theorem upperhex_path_all (c : Byte) :
    [upperhex.getD (c.val >>> 4) 0, upperhex.getD (c.val &&& 15) 0].all
      (fun x => x != cSlash && x != cQuestion && x != cHash && x != cPercent) = true := by
  revert c; decide!

theorem upperhex_path_plain (c : Byte) :
    ∀ x ∈ [upperhex.getD (c.val >>> 4) 0, upperhex.getD (c.val &&& 15) 0],
      x ≠ cSlash ∧ x ≠ cQuestion ∧ x ≠ cHash ∧ x ≠ cPercent := by
  intro x hx
  have := List.all_eq_true.mp (upperhex_path_all c) x hx
  simpa [and_assoc] using this

theorem unescape_escapeByte_path (c : Byte) (rest : GoString) :
    unescape (escapeByte .encodePath c ++ rest) .encodePath
      = consOk c (unescape rest .encodePath) := by
  rcases escapeByte_path_cases c with ⟨h, hp, _, _⟩ | ⟨h, _, _⟩
  · rw [h]
    by_cases hplus : c = cPlus
    · subst hplus
      simp [unescape_plus]
    · simp only [List.cons_append, List.nil_append]
      rw [unescape_plain _ _ _ hp hplus]
      simp
  · rw [h]
    simp only [List.cons_append, List.nil_append]
    rw [unescape_percent _ _ _ _ (upperhex_ishex c).1 (upperhex_ishex c).2 (by decide)
      (by decide), upperhex_unhex]

theorem escape_cons (c : Byte) (rest : GoString) (mode : Encoding) :
    escape (c :: rest) mode = escapeByte mode c ++ escape rest mode := by
  simp [escape, List.flatMap_cons]

theorem escape_append (a b : GoString) (mode : Encoding) :
    escape (a ++ b) mode = escape a mode ++ escape b mode := by
  simp [escape, List.flatMap_append]

theorem unescape_escape_path (p : GoString) :
    unescape (escape p .encodePath) .encodePath = .ok p := by
  induction p with
  | nil => rfl
  | cons c rest ih =>
      rw [escape_cons, unescape_escapeByte_path, ih]
      rfl

theorem escape_path_plain (p : GoString) :
    ∀ x ∈ escape p .encodePath, x ≠ cQuestion ∧ x ≠ cHash := by
  intro x hx
  simp only [escape, List.mem_flatMap] at hx
  obtain ⟨c, _, hc⟩ := hx
  rcases escapeByte_path_cases c with ⟨h, _, hq, hh⟩ | ⟨h, _, _⟩
  · rw [h] at hc
    simp only [List.mem_singleton] at hc
    subst hc
    exact ⟨hq, hh⟩
  · rw [h] at hc
    simp only [List.mem_cons] at hc
    rcases hc with rfl | hc
    · exact ⟨by decide, by decide⟩
    · have := upperhex_path_plain c x (by simpa using hc)
      exact ⟨this.2.1, this.2.2.1⟩

theorem escapeByte_path_slash : escapeByte .encodePath cSlash = [cSlash] := by decide

theorem escapeByte_path_no_slash (c : Byte) (hc : c ≠ cSlash) :
    cSlash ∉ escapeByte .encodePath c := by
  rcases escapeByte_path_cases c with ⟨h, _, _, _⟩ | ⟨h, _, _⟩
  · rw [h]
    simpa using hc.symm
  · rw [h]
    intro hm
    simp only [List.mem_cons] at hm
    rcases hm with hm | hm
    · exact absurd hm (by decide)
    · exact (upperhex_path_plain c _ (by simpa using hm)).1 rfl

theorem escape_path_no_slash (s : GoString) (hs : cSlash ∉ s) :
    cSlash ∉ escape s .encodePath := by
  intro hm
  simp only [escape, List.mem_flatMap] at hm
  obtain ⟨c, hc, hm⟩ := hm
  exact escapeByte_path_no_slash c (fun e => hs (e ▸ hc)) hm

theorem escape_path_eq_dot (s : GoString) (h : escape s .encodePath = [cDot]) : s = [cDot] := by
  cases s with
  | nil => simp [escape] at h
  | cons c rest =>
      rw [escape_cons] at h
      rcases escapeByte_path_cases c with ⟨hc, _, _, _⟩ | ⟨hc, _, _⟩
      · rw [hc] at h
        simp only [List.singleton_append, List.cons.injEq] at h
        rw [h.1, (escape_eq_nil _ _).mp h.2]
      · rw [hc] at h
        simp at h

theorem escape_path_eq_dotdot (s : GoString) (h : escape s .encodePath = [cDot, cDot]) :
    s = [cDot, cDot] := by
  cases s with
  | nil => simp [escape] at h
  | cons c rest =>
      rw [escape_cons] at h
      rcases escapeByte_path_cases c with ⟨hc, _, _, _⟩ | ⟨hc, _, _⟩
      · rw [hc] at h
        simp only [List.singleton_append, List.cons.injEq] at h
        rw [h.1, escape_path_eq_dot _ h.2]
      · rw [hc] at h
        simp only [List.cons_append, List.nil_append, List.cons.injEq] at h
        exact absurd h.1 (by decide)

theorem escape_real (s : GoString) (h : isRealSegment s = true) :
    isRealSegment (escape s .encodePath) = true := by
  have hne := isRealSegment_ne_nil s h
  have hsl := isRealSegment_no_slash s h
  have h' := h
  simp only [isRealSegment, Bool.and_eq_true, bne_iff_ne, ne_eq, Bool.not_eq_true'] at h' ⊢
  refine ⟨⟨⟨?_, ?_⟩, ?_⟩, ?_⟩
  · rw [escape_eq_nil]
    exact hne
  · simpa using escape_path_no_slash s hsl
  · exact fun e => h'.1.2 (escape_path_eq_dot s e)
  · exact fun e => h'.2 (escape_path_eq_dotdot s e)

theorem Split_append_no_sep (pre tl seg : GoString) (segs : List GoString) (sep : Byte)
    (h : sep ∉ pre) (hsp : Split tl sep = seg :: segs) :
    Split (pre ++ tl) sep = (pre ++ seg) :: segs := by
  induction pre with
  | nil => simpa using hsp
  | cons x xs ih =>
      have hx : x ≠ sep := fun e => h (by simp [e])
      have := ih (fun e => h (by simp [e]))
      rw [List.cons_append, Split, if_neg hx, this]
      rfl

theorem Split_escape_path (p : GoString) :
    Split (escape p .encodePath) cSlash = (Split p cSlash).map (fun s => escape s .encodePath) := by
  induction p with
  | nil => rfl
  | cons c rest ih =>
      rw [escape_cons]
      by_cases hc : c = cSlash
      · subst hc
        rw [escapeByte_path_slash]
        show Split (cSlash :: escape rest .encodePath) cSlash = _
        rw [Split, if_pos rfl, ih]
        simp [Split, escape]
      · have hn := escapeByte_path_no_slash c hc
        cases hsp : Split rest cSlash with
        | nil => exact absurd hsp (Split_ne_nil _ _)
        | cons a b =>
            rw [hsp] at ih
            rw [Split_append_no_sep _ _ _ _ _ hn ih, Split, if_neg hc, hsp]
            simp only [List.map_cons, escape_cons]

end NearlyFreeSpeech
